import Mathlib

/-!
Verification of the Beyondcoin domain-registry core (src/domains) against its
natural-language specification.  The C++ data structures and operations are
shallowly embedded: byte sequences become lists of naturals, `std::map` /
`std::set` become sorted association lists ordered by the same comparator the
C++ containers use, and fallible operations return `Option` / `Except`.
-/

set_option maxHeartbeats 1000000

namespace Beyondcoin

/-- A byte sequence (C++ `valtype`, i.e. `std::vector<unsigned char>`).
Bytes are modelled as naturals; every byte produced by the serializers
below is < 256. -/
abbrev valtype := List Nat

/-- Lexicographic strict comparison of byte sequences: C++
`operator<` on `std::vector<unsigned char>`
(`std::lexicographical_compare`). -/
def lexLt : valtype → valtype → Bool
  | [], [] => false
  | [], _ :: _ => true
  | _ :: _, [] => false
  | a :: as, b :: bs =>
    if a < b then true
    else if b < a then false
    else lexLt as bs

/-- `CDomainCache::DomainComparator::operator()` (src/domains/common.h):
compare two domains by byte length first, then lexicographically. -/
def domLt (a b : valtype) : Bool :=
  if a.length ≠ b.length then decide (a.length < b.length)
  else lexLt a b


/- ********************************************************************** -/
/- Data model: CDomainData, expire-index keys, CDomainCache.               -/

/-- `CDomainData` (src/domains/common.h): value, update height, update
outpoint (txid modelled as a natural, output index) and address script
(modelled as its byte sequence). -/
structure CDomainData where
  value : valtype
  nHeight : Nat
  prevout : Nat × Nat
  addr : valtype
deriving DecidableEq, Repr

/-- Key of `CDomainCache::ExpireEntry`: `(nHeight, domain)`. -/
abbrev ExpireKey := Nat × valtype

/-- `CDomainCache::ExpireEntry::operator<`: by height first, then by raw
domain bytes (plain lexicographic `std::vector` comparison). -/
def expireLt (a b : ExpireKey) : Bool :=
  if a.1 ≠ b.1 then decide (a.1 < b.1)
  else lexLt a.2 b.2


/-- Insert-or-assign into a sorted association list: the behaviour of
`std::map` keyed by the strict comparator `lt` (`find` + assign when an
equivalent key exists, sorted insertion otherwise). -/
def insertSortedBy {α β : Type} (lt : α → α → Bool) (k : α) (v : β) :
    List (α × β) → List (α × β)
  | [] => [(k, v)]
  | (k2, w) :: rest =>
    if lt k k2 then (k, v) :: (k2, w) :: rest
    else if lt k2 k then (k2, w) :: insertSortedBy lt k v rest
    else (k, v) :: rest

/-- Sorted-set insertion: the behaviour of `std::set` keyed by `lt`
(no-op when an equivalent element exists). -/
def insertSetBy {α : Type} (lt : α → α → Bool) (x : α) : List α → List α
  | [] => [x]
  | y :: ys =>
    if lt x y then x :: y :: ys
    else if lt y x then y :: insertSetBy lt x ys
    else y :: ys

/-- Erase an element from a set modelled as a list (`std::set::erase`). -/
def eraseElem {α : Type} [DecidableEq α] (x : α) (l : List α) : List α :=
  l.filter (fun y => y ≠ x)

/-- Erase a key from an association list (`std::map::erase`). -/
def eraseKey {α β : Type} [DecidableEq α] (k : α) (l : List (α × β)) :
    List (α × β) :=
  l.filter (fun p => p.1 ≠ k)

/-- First-match association-list lookup (`std::map::find`). -/
def lookupAssoc {α β : Type} [DecidableEq α] (k : α) : List (α × β) → Option β
  | [] => none
  | (k2, v) :: rest => if k2 = k then some v else lookupAssoc k rest

/-- `CDomainCache` (src/domains/common.h): pending entries (sorted by
`DomainComparator`), deleted domains (a set with the default lexicographic
order), pending history stacks (default lexicographic order) and pending
expire-index changes (sorted by `ExpireEntry::operator<`, mapped to
true = add / false = delete). -/
structure CDomainCache where
  entries : List (valtype × CDomainData)
  deleted : List valtype
  history : List (valtype × List CDomainData)
  expireIndex : List (ExpireKey × Bool)
deriving DecidableEq, Repr

/-- A freshly constructed (clean) cache. -/
def emptyCache : CDomainCache := ⟨[], [], [], []⟩

/-- `CDomainCache::get`: look up in `entries` only. -/
def CDomainCache.get (c : CDomainCache) (domain : valtype) : Option CDomainData :=
  lookupAssoc domain c.entries

/-- `CDomainCache::isDeleted`. -/
def CDomainCache.isDeleted (c : CDomainCache) (domain : valtype) : Bool :=
  decide (domain ∈ c.deleted)

/-- `CDomainCache::set`: clear any deleted mark, then insert or overwrite
in `entries`. -/
def CDomainCache.set (c : CDomainCache) (domain : valtype) (data : CDomainData) :
    CDomainCache :=
  { c with
    deleted := eraseElem domain c.deleted
    entries := insertSortedBy domLt domain data c.entries }

/-- `CDomainCache::remove`: erase from `entries` if present, unconditionally
mark as deleted. -/
def CDomainCache.remove (c : CDomainCache) (domain : valtype) : CDomainCache :=
  { c with
    entries := eraseKey domain c.entries
    deleted := insertSetBy lexLt domain c.deleted }

/-- `CDomainCache::setHistory`. -/
def CDomainCache.setHistory (c : CDomainCache) (domain : valtype)
    (data : List CDomainData) : CDomainCache :=
  { c with history := insertSortedBy lexLt domain data c.history }

/-- `CDomainCache::addExpireIndex`: `expireIndex[entry] = true`. -/
def CDomainCache.addExpireIndex (c : CDomainCache) (domain : valtype)
    (height : Nat) : CDomainCache :=
  { c with expireIndex := insertSortedBy expireLt (height, domain) true c.expireIndex }

/-- `CDomainCache::removeExpireIndex`: `expireIndex[entry] = false`. -/
def CDomainCache.removeExpireIndex (c : CDomainCache) (domain : valtype)
    (height : Nat) : CDomainCache :=
  { c with expireIndex := insertSortedBy expireLt (height, domain) false c.expireIndex }

/-- `CDomainCache::apply`: replay the other cache's entries via `set`, its
deletions via `remove`, its history via `setHistory`, and overwrite the
expire-index changes directly. -/
def CDomainCache.apply (c : CDomainCache) (other : CDomainCache) : CDomainCache :=
  let c1 := other.entries.foldl (fun acc p => acc.set p.1 p.2) c
  let c2 := other.deleted.foldl (fun acc d => acc.remove d) c1
  let c3 := other.history.foldl (fun acc p => acc.setHistory p.1 p.2) c2
  { c3 with
    expireIndex :=
      other.expireIndex.foldl (fun acc p => insertSortedBy expireLt p.1 p.2 acc)
        c3.expireIndex }

/-- The loop of `CDomainCache::updateDomainsForHeight` starting at the
iterator position returned by `lower_bound`: apply changes until the key
height passes `nHeight` (the working set is a `std::set<valtype>` with the
default lexicographic order). -/
def applyExpireOps (nHeight : Nat) :
    List (ExpireKey × Bool) → List valtype → List valtype
  | [], ds => ds
  | (k, b) :: rest, ds =>
    if nHeight < k.1 then ds
    else applyExpireOps nHeight rest
      (if b then insertSetBy lexLt k.2 ds else eraseElem k.2 ds)

/-- `CDomainCache::updateDomainsForHeight`: seek (`lower_bound`) to the first
expire-index entry whose key is not below `(nHeight, [])`, then apply
entries while their height does not exceed `nHeight`. -/
def CDomainCache.updateDomainsForHeight (c : CDomainCache) (nHeight : Nat)
    (domains : List valtype) : List valtype :=
  applyExpireOps nHeight
    (c.expireIndex.dropWhile (fun p => expireLt p.1 (nHeight, []))) domains

/- ********************************************************************** -/
/- Merge iterator (CCacheDomainIterator, src/domains/common.cpp).          -/

/-- `CCacheDomainIterator::advanceBaseIterator`: fetch the next base entry,
skipping entries marked deleted in the cache.  The remaining base sequence
after an advance is the suffix starting at the first non-deleted entry. -/
def advanceBase (c : CDomainCache) (l : List (valtype × CDomainData)) :
    List (valtype × CDomainData) :=
  l.dropWhile (fun p => c.isDeleted p.1)

/-- Repeated `CCacheDomainIterator::next` until exhaustion, collecting the
emitted `(domain, data)` pairs.  `bs` is the pending base sequence (its head
is the base iterator's current candidate, already past deleted entries),
`cs` the remaining cache entries at the cache cursor. -/
def mergeRun (c : CDomainCache) :
    List (valtype × CDomainData) → List (valtype × CDomainData) →
      List (valtype × CDomainData)
  | [], [] => []
  | [], ce :: cs => ce :: mergeRun c [] cs
  | b :: bs, [] => b :: mergeRun c (advanceBase c bs) []
  | b :: bs, ce :: cs =>
    if b.1 = ce.1 then
      match hadv : advanceBase c bs with
      | [] => ce :: mergeRun c [] cs
      | b2 :: bs2 =>
        if domLt b2.1 ce.1 then b2 :: mergeRun c (advanceBase c bs2) (ce :: cs)
        else ce :: mergeRun c (b2 :: bs2) cs
    else if domLt b.1 ce.1 then b :: mergeRun c (advanceBase c bs) (ce :: cs)
    else ce :: mergeRun c (b :: bs) cs
termination_by bs cs => bs.length + cs.length
decreasing_by
  all_goals simp only [List.length_cons] at *
  all_goals
    first
      | omega
      | (have h1 : (advanceBase c bs).length ≤ bs.length :=
           (List.dropWhile_sublist _).length_le
         first
           | omega
           | (rw [hadv] at h1; try simp only [List.length_cons] at h1
              first
                | omega
                | (have h2 : (advanceBase c bs2).length ≤ bs2.length :=
                     (List.dropWhile_sublist _).length_le
                   omega)))

/-- The full output of a merge iterator constructed over the cache `c` and a
base iterator yielding `base`: construction seeks to the empty domain (the
minimum of the domain ordering), positioning the cache cursor at the first
entry and the base candidate past any deleted prefix. -/
def mergeList (c : CDomainCache) (base : List (valtype × CDomainData)) :
    List (valtype × CDomainData) :=
  mergeRun c (advanceBase c base) c.entries

/- ********************************************************************** -/
/- Operation sequences over a cache (for the cache invariant).             -/

/-- One public mutation of the overlay cache. -/
inductive CacheOp where
  | setOp (domain : valtype) (data : CDomainData)
  | removeOp (domain : valtype)
deriving DecidableEq, Repr

/-- Run a sequence of `set`/`remove` calls. -/
def runOps : List CacheOp → CDomainCache → CDomainCache
  | [], c => c
  | .setOp d v :: rest, c => runOps rest (c.set d v)
  | .removeOp d :: rest, c => runOps rest (c.remove d)

/-- No domain key is present in both `entries` and `deleted`. -/
def noOverlap (c : CDomainCache) : Bool :=
  c.entries.all (fun p => decide (p.1 ∉ c.deleted))

/- ********************************************************************** -/
/- Domain scripts, transactions and CheckDomainTransaction                 -/
/- (src/domains/main.cpp).                                                 -/

/-- The parsed domain operation of a script (`CDomainScript`): either not a
domain operation, or one of NEW / FIRSTUPDATE / UPDATE with its operands. -/
inductive DomScript where
  | nonDomain : DomScript
  | opNew (hash : valtype) : DomScript
  | opFirstupdate (domain rand value : valtype) : DomScript
  | opUpdate (domain value : valtype) : DomScript
deriving DecidableEq, Repr

/-- `CDomainScript::isDomainOp`. -/
def DomScript.isDomainOp : DomScript → Bool
  | .nonDomain => false
  | _ => true

/-- `CDomainScript::isAnyUpdate`: FIRSTUPDATE or UPDATE. -/
def DomScript.isAnyUpdate : DomScript → Bool
  | .opFirstupdate _ _ _ => true
  | .opUpdate _ _ => true
  | _ => false

/-- `CDomainScript::getOpDomain` (defined on update-class operations). -/
def DomScript.getOpDomain : DomScript → valtype
  | .opFirstupdate d _ _ => d
  | .opUpdate d _ => d
  | _ => []

/-- `CDomainScript::getOpValue`. -/
def DomScript.getOpValue : DomScript → valtype
  | .opFirstupdate _ _ v => v
  | .opUpdate _ v => v
  | _ => []

/-- `CDomainScript::getOpRand` (the revealed salt of a FIRSTUPDATE). -/
def DomScript.getOpRand : DomScript → valtype
  | .opFirstupdate _ r _ => r
  | _ => []

/-- `CDomainScript::getOpHash` (the commitment hash of a NEW). -/
def DomScript.getOpHash : DomScript → valtype
  | .opNew h => h
  | _ => []

/-- Sentinel height marking a coin still in the mempool (`MEMPOOL_HEIGHT`
of the surrounding node, `0x7FFFFFFF`). -/
def MEMPOOL_HEIGHT : Nat := 0x7FFFFFFF

/-- `MIN_FIRSTUPDATE_DEPTH` (src/domains/main.h): fixed constant 12. -/
def MIN_FIRSTUPDATE_DEPTH : Nat := 12

/-- The static `isExpired (nPrevHeight, nHeight)` of src/domains/main.cpp:
a coin from the mempool is never expired; otherwise the domain is expired
iff `nPrevHeight + DomainExpirationDepth(nHeight) <= nHeight` (32-bit
unsigned arithmetic).  The expiration-depth schedule is the external
consensus rule set, passed in as a function. -/
def isExpiredAt (expirationDepth : Nat → Nat) (nPrevHeight nHeight : Nat) : Bool :=
  if nPrevHeight = MEMPOOL_HEIGHT then false
  else decide ((nPrevHeight + expirationDepth nHeight) % 2 ^ 32 ≤ nHeight)

/-- `CDomainData::isExpired (h)`. -/
def CDomainData.isExpiredAt (expirationDepth : Nat → Nat) (data : CDomainData)
    (h : Nat) : Bool :=
  Beyondcoin.isExpiredAt expirationDepth data.nHeight h

/-- One transaction input as `CheckDomainTransaction` sees it: whether the
input's coins could be fetched from the view, the parsed script of the spent
output, and the coin's height. -/
structure TxIn where
  fetchOk : Bool
  script : DomScript
  nHeight : Nat
deriving DecidableEq, Repr

/-- One transaction output: locked amount and parsed script. -/
structure TxOut where
  nValue : Nat
  script : DomScript
deriving DecidableEq, Repr

/-- A transaction as the domain logic sees it: its id (modelled as a
natural), the Beyondcoin version flag, whether `IsHistoricBug` matches it at
the validation height, and its resolved inputs and outputs. -/
structure Tx where
  txid : Nat
  isBeyondcoin : Bool
  historicBug : Bool
  vin : List TxIn
  vout : List TxOut
deriving DecidableEq, Repr

/-- Rejection reasons of `CheckDomainTransaction`, one per `return` path. -/
inductive CheckErr where
  | fetchInputFailed
  | multipleDomainIn
  | multipleDomainOut
  | nonBeyondcoinDomainIn
  | nonBeyondcoinDomainOut
  | missingDomainOut
  | greedyDomain
  | newWithDomainIn
  | newHashWrongSize
  | updateWithoutDomainIn
  | domainTooLong
  | valueTooLong
  | updatePrevNotUpdate
  | updateDomainMismatch
  | updateExpired
  | firstupdatePrevNotNew
  | firstupdateNotMature
  | firstupdateRandTooLarge
  | firstupdateHashMismatch
  | firstupdateExistingDomain
  | maturityAssertFailed
deriving DecidableEq, Repr

/-- The input loop of `CheckDomainTransaction`: fetch each input's coins
(failure rejects), record the unique domain-operation input (a second one
rejects). -/
def scanDomainInputs (acc : Option (DomScript × Nat)) :
    List TxIn → Except CheckErr (Option (DomScript × Nat))
  | [] => .ok acc
  | i :: rest =>
    if i.fetchOk = false then .error .fetchInputFailed
    else if i.script.isDomainOp then
      match acc with
      | some _ => .error .multipleDomainIn
      | none => scanDomainInputs (some (i.script, i.nHeight)) rest
    else scanDomainInputs acc rest

/-- The output loop of `CheckDomainTransaction`: record the unique
domain-operation output (a second one rejects). -/
def scanDomainOutputs (acc : Option TxOut) :
    List TxOut → Except CheckErr (Option TxOut)
  | [] => .ok acc
  | o :: rest =>
    if o.script.isDomainOp then
      match acc with
      | some _ => .error .multipleDomainOut
      | none => scanDomainOutputs (some o) rest
    else scanDomainOutputs acc rest

/-- `CheckDomainTransaction` (src/domains/main.cpp).  The external consensus
rule set (`DomainExpirationDepth`, `MinBeyondCoinAmount`) and the `Hash160`
function are passed in as parameters; `getDomain` is the view's domain
lookup; `fMempool` is the `SCRIPT_VERIFY_DOMAINS_MEMPOOL` flag.  Fails
closed: the first failing rule rejects with its reason. -/
def CheckDomainTransaction (expirationDepth minAmount : Nat → Nat)
    (hash160 : valtype → valtype) (tx : Tx) (nHeight : Nat)
    (getDomain : valtype → Option CDomainData) (fMempool : Bool) :
    Except CheckErr Unit :=
  if tx.historicBug then .ok ()
  else
    match scanDomainInputs none tx.vin with
    | .error e => .error e
    | .ok domainIn =>
      match scanDomainOutputs none tx.vout with
      | .error e => .error e
      | .ok domainOut =>
        if tx.isBeyondcoin = false then
          if domainIn.isSome then .error .nonBeyondcoinDomainIn
          else if domainOut.isSome then .error .nonBeyondcoinDomainOut
          else .ok ()
        else
          match domainOut with
          | none => .error .missingDomainOut
          | some out =>
            if out.nValue < minAmount nHeight then .error .greedyDomain
            else
              match out.script with
              | .nonDomain => .ok ()
              | .opNew hsh =>
                if domainIn.isSome then .error .newWithDomainIn
                else if hsh.length ≠ 20 then .error .newHashWrongSize
                else .ok ()
              | .opUpdate nm v =>
                match domainIn with
                | none => .error .updateWithoutDomainIn
                | some (inOp, inHeight) =>
                  if nm.length > 255 then .error .domainTooLong
                  else if v.length > 1023 then .error .valueTooLong
                  else if inOp.isAnyUpdate = false then .error .updatePrevNotUpdate
                  else if nm ≠ inOp.getOpDomain then .error .updateDomainMismatch
                  else if isExpiredAt expirationDepth inHeight nHeight then
                    .error .updateExpired
                  else .ok ()
              | .opFirstupdate nm rnd v =>
                match domainIn with
                | none => .error .updateWithoutDomainIn
                | some (inOp, inHeight) =>
                  if nm.length > 255 then .error .domainTooLong
                  else if v.length > 1023 then .error .valueTooLong
                  else
                    match inOp with
                    | .opNew committed =>
                      if fMempool = false ∧ inHeight = MEMPOOL_HEIGHT then
                        .error .maturityAssertFailed
                      else if fMempool = false ∧
                          nHeight < (inHeight + MIN_FIRSTUPDATE_DEPTH) % 2 ^ 32 then
                        .error .firstupdateNotMature
                      else if rnd.length > 20 then .error .firstupdateRandTooLarge
                      else if hash160 (rnd ++ nm) ≠ committed then
                        .error .firstupdateHashMismatch
                      else
                        match getDomain nm with
                        | some oldDomain =>
                          if oldDomain.isExpiredAt expirationDepth nHeight = false then
                            .error .firstupdateExistingDomain
                          else .ok ()
                        | none => .ok ()
                    | _ => .error .firstupdatePrevNotNew

/- ********************************************************************** -/
/- Mempool registry (CDomainMemPool, src/domains/main.cpp).                -/

/-- The domain-relevant part of a `CTxMemPoolEntry`. -/
structure CTxMemPoolEntry where
  isDomainNew : Bool
  domainNewHash : valtype
  isDomainRegistration : Bool
  isDomainUpdate : Bool
  domain : valtype
deriving DecidableEq, Repr

/-- `CDomainMemPool` state: domain → registering txid, domain → updating
txid, NEW commitment hash → txid.  All three are `std::map` with the
default lexicographic key order; txids are modelled as naturals. -/
structure CDomainMemPool where
  mapDomainRegs : List (valtype × Nat)
  mapDomainUpdates : List (valtype × Nat)
  mapDomainNews : List (valtype × Nat)
deriving DecidableEq, Repr

/-- `CDomainMemPool::registersDomain`. -/
def CDomainMemPool.registersDomain (p : CDomainMemPool) (domain : valtype) : Bool :=
  (lookupAssoc domain p.mapDomainRegs).isSome

/-- `CDomainMemPool::updatesDomain`. -/
def CDomainMemPool.updatesDomain (p : CDomainMemPool) (domain : valtype) : Bool :=
  (lookupAssoc domain p.mapDomainUpdates).isSome

/-- Body of the `checkTx` output loop for one output script: true iff this
output raises no conflict. -/
def checkTxOut (p : CDomainMemPool) (txid : Nat) : DomScript → Bool
  | .nonDomain => true
  | .opNew hsh =>
    match lookupAssoc hsh p.mapDomainNews with
    | some t => decide (t = txid)
    | none => true
  | .opFirstupdate d _ _ => !(p.registersDomain d)
  | .opUpdate d _ => !(p.updatesDomain d)

/-- `CDomainMemPool::checkTx`: a non-Beyondcoin transaction passes; a
Beyondcoin transaction passes iff no domain-operation output conflicts. -/
def CDomainMemPool.checkTx (p : CDomainMemPool) (tx : Tx) : Bool :=
  if tx.isBeyondcoin = false then true
  else tx.vout.all (fun o => checkTxOut p tx.txid o.script)

/-- `CDomainMemPool::remove`: inverse of `addUnchecked` for the
registration and update maps (the NEW-commitment map is never pruned). -/
def CDomainMemPool.remove (p : CDomainMemPool) (e : CTxMemPoolEntry) :
    CDomainMemPool :=
  let p1 :=
    if e.isDomainRegistration then
      { p with mapDomainRegs := eraseKey e.domain p.mapDomainRegs }
    else p
  if e.isDomainUpdate then
    { p1 with mapDomainUpdates := eraseKey e.domain p1.mapDomainUpdates }
  else p1

/-- The spec's description of when one domain-operation output conflicts
with the pool (stated independently of the loop in `checkTx`, for the
correspondence theorem): a NEW conflicts iff its commitment hash is claimed
by a different txid, a FIRSTUPDATE iff its domain has a pending
registration, an UPDATE iff its domain has a pending update. -/
def outputConflicts (p : CDomainMemPool) (txid : Nat) (s : DomScript) : Prop :=
  (∃ hsh t, s = .opNew hsh ∧ lookupAssoc hsh p.mapDomainNews = some t ∧ t ≠ txid) ∨
  (∃ d r v, s = .opFirstupdate d r v ∧ p.registersDomain d = true) ∨
  (∃ d v, s = .opUpdate d v ∧ p.updatesDomain d = true)

/- ********************************************************************** -/
/- ExpireEntry serialization (src/domains/common.h).                       -/

/-- The four big-endian bytes of a 32-bit height (`htobe32` followed by the
serializer's byte-for-byte write). -/
def natToBeBytes4 (n : Nat) : List Nat :=
  [n / 2 ^ 24 % 256, n / 2 ^ 16 % 256, n / 2 ^ 8 % 256, n % 256]

/-- Recombine four big-endian bytes. -/
def beBytes4ToNat (b0 b1 b2 b3 : Nat) : Nat :=
  ((b0 * 256 + b1) * 256 + b2) * 256 + b3

/-- `k` little-endian bytes of `n` (the serializer's integer encoding). -/
def natToLeBytes : Nat → Nat → List Nat
  | 0, _ => []
  | k + 1, n => n % 256 :: natToLeBytes k (n / 256)

/-- Recombine little-endian bytes. -/
def leBytesToNat : List Nat → Nat
  | [] => 0
  | b :: rest => b + 256 * leBytesToNat rest

/-- `WriteCompactSize` of the base serializer (sizes below 253 in one byte,
then 2-, 4- or 8-byte little-endian forms with marker bytes 253/254/255). -/
def writeCompactSize (n : Nat) : List Nat :=
  if n < 253 then [n]
  else if n ≤ 0xFFFF then 253 :: natToLeBytes 2 n
  else if n ≤ 0xFFFFFFFF then 254 :: natToLeBytes 4 n
  else 255 :: natToLeBytes 8 n

/-- `MAX_SIZE`: the base serializer's sanity bound on deserialized sizes. -/
def MAX_SIZE : Nat := 0x02000000

/-- `ReadCompactSize`: inverse of `writeCompactSize`, rejecting
non-canonical encodings. -/
def readCompactSize : List Nat → Option (Nat × List Nat)
  | [] => none
  | b :: rest =>
    if b < 253 then some (b, rest)
    else if b = 253 then
      match rest with
      | b0 :: b1 :: rest2 =>
        let n := leBytesToNat [b0, b1]
        if n < 253 then none else some (n, rest2)
      | _ => none
    else if b = 254 then
      match rest with
      | b0 :: b1 :: b2 :: b3 :: rest2 =>
        let n := leBytesToNat [b0, b1, b2, b3]
        if n ≤ 0xFFFF then none else some (n, rest2)
      | _ => none
    else
      match rest with
      | b0 :: b1 :: b2 :: b3 :: b4 :: b5 :: b6 :: b7 :: rest2 =>
        let n := leBytesToNat [b0, b1, b2, b3, b4, b5, b6, b7]
        if n ≤ 0xFFFFFFFF then none else some (n, rest2)
      | _ => none

/-- Serialization of a `valtype` (byte vector): compact size then raw
bytes. -/
def serValtype (v : valtype) : List Nat :=
  writeCompactSize v.length ++ v

/-- Deserialization of a `valtype`, enforcing the serializer's `MAX_SIZE`
bound and sufficient remaining input. -/
def deserValtype (l : List Nat) : Option (valtype × List Nat) :=
  match readCompactSize l with
  | none => none
  | some (n, rest) =>
    if MAX_SIZE < n then none
    else if rest.length < n then none
    else some (rest.take n, rest.drop n)

/-- `CDomainCache::ExpireEntry::Serialize`: the height's byte order is
flipped to big endian (`htobe32`) before writing, then the domain. -/
def serExpireEntry (e : ExpireKey) : List Nat :=
  natToBeBytes4 e.1 ++ serValtype e.2

/-- `CDomainCache::ExpireEntry::Unserialize`. -/
def deserExpireEntry (l : List Nat) : Option (ExpireKey × List Nat) :=
  match l with
  | b0 :: b1 :: b2 :: b3 :: rest =>
    match deserValtype rest with
    | some (d, rest2) => some ((beBytes4ToNat b0 b1 b2 b3, d), rest2)
    | none => none
  | _ => none

/- ********************************************************************** -/
/- ExpireDomains (src/domains/main.cpp).                                   -/

/-- The slice of the UTXO view that `ExpireDomains` consumes: domain lookup,
the per-height expiry index (the physical index merged with pending cache
changes), and coin availability by outpoint, giving the parsed script of an
available coin. -/
structure CCoinsView where
  getDomain : valtype → Option CDomainData
  domainsForHeight : Nat → List valtype
  coins : Nat × Nat → Option DomScript

/-- The domain `"d/postmortem"` of the historic name-stealing exception. -/
def postmortemDomain : valtype :=
  [100, 47, 112, 111, 115, 116, 109, 111, 114, 116, 101, 109]

/-- Collect the domains indexed at the given heights into one set
(`std::set<valtype>`, default lexicographic order). -/
def collectExpired (view : CCoinsView) (hs : List Nat) : List valtype :=
  hs.foldl
    (fun acc h =>
      (view.domainsForHeight h).foldl (fun a d => insertSetBy lexLt d a) acc)
    []

/-- The body of the expiry loop for one domain: check it exists and is
genuinely expired, skip the historic `d/postmortem` exception, then locate
and spend its owning coin, appending the spent script to the undo list.
`none` models the function's error returns. -/
def expireOne (expirationDepth : Nat → Nat) (nHeight : Nat)
    (view : CCoinsView) (undo : List DomScript) (nm : valtype) :
    Option (CCoinsView × List DomScript) :=
  match view.getDomain nm with
  | none => none
  | some data =>
    if data.isExpiredAt expirationDepth nHeight = false then none
    else if nHeight = 175868 ∧ nm = postmortemDomain then some (view, undo)
    else
      match view.coins data.prevout with
      | none => none
      | some s =>
        if s.isDomainOp = false then none
        else if s.isAnyUpdate = false then none
        else if s.getOpDomain ≠ nm then none
        else
          some
            ({ view with
                coins := fun p => if p = data.prevout then none else view.coins p },
              undo ++ [s])

/-- The expiry loop over the collected domain set. -/
def expireAll (expirationDepth : Nat → Nat) (nHeight : Nat) :
    List valtype → CCoinsView → List DomScript →
      Option (CCoinsView × List DomScript)
  | [], view, undo => some (view, undo)
  | nm :: rest, view, undo =>
    match expireOne expirationDepth nHeight view undo nm with
    | none => none
    | some (v2, u2) => expireAll expirationDepth nHeight rest v2 u2

/-- `ExpireDomains` (src/domains/main.cpp): no-op at height 0; compute the
old and new expiration depths; if the new depth exceeds the height, nothing
can expire yet and the function returns unchanged state; otherwise collect
the domains indexed in `[nHeight - expDepthOld, nHeight - expDepthNow]`
(32-bit unsigned subtraction) and spend each one's coin.  Returns the
updated view, the undo list and the expired-domain set; `none` models
error returns and the `expireFrom <= expireTo + 1` assertion. -/
def ExpireDomains (expirationDepth : Nat → Nat) (nHeight : Nat)
    (view : CCoinsView) (undo : List DomScript) :
    Option (CCoinsView × List DomScript × List valtype) :=
  if nHeight = 0 then some (view, undo, [])
  else
    let expDepthOld := expirationDepth (nHeight - 1)
    let expDepthNow := expirationDepth nHeight
    if nHeight < expDepthNow then some (view, undo, [])
    else
      let expireFrom := (nHeight + 2 ^ 32 - expDepthOld % 2 ^ 32) % 2 ^ 32
      let expireTo := nHeight - expDepthNow
      if expireTo + 1 < expireFrom then none
      else
        let domains := collectExpired view (List.range' expireFrom (expireTo + 1 - expireFrom))
        match expireAll expirationDepth nHeight domains view undo with
        | none => none
        | some (v2, u2) => some (v2, u2, domains)

/-- A trivial coins view (no domains, no index, no coins), used to
instantiate theorems at concrete inputs. -/
def emptyView : CCoinsView :=
  ⟨fun _ => none, fun _ => [], fun _ => none⟩

/- ********************************************************************** -/
/- Theorems.                                                              -/

/- Basic order lemmas for `lexLt`. -/

theorem lexLt_irrefl (a : valtype) : lexLt a a = false := by
  induction a with
  | nil => rfl
  | cons x xs ih => simp [lexLt, ih]

theorem lexLt_trans :
    ∀ a b c : valtype, lexLt a b = true → lexLt b c = true → lexLt a c = true := by
  intro a
  induction a with
  | nil =>
    intro b c hab hbc
    cases b with
    | nil => exact hbc
    | cons y ys =>
      cases c with
      | nil => simp [lexLt] at hbc
      | cons z zs => simp [lexLt]
  | cons x xs ih =>
    intro b c hab hbc
    cases b with
    | nil => simp [lexLt] at hab
    | cons y ys =>
      cases c with
      | nil => simp [lexLt] at hbc
      | cons z zs =>
        simp only [lexLt] at hab hbc ⊢
        rcases Nat.lt_trichotomy x y with hxy | hxy | hxy
        · rcases Nat.lt_trichotomy y z with hyz | hyz | hyz
          · simp [Nat.lt_trans hxy hyz]
          · subst hyz; simp [hxy]
          · rw [if_neg (Nat.lt_asymm hyz), if_pos hyz] at hbc; cases hbc
        · subst hxy
          rw [if_neg (Nat.lt_irrefl x), if_neg (Nat.lt_irrefl x)] at hab
          rcases Nat.lt_trichotomy x z with hxz | hxz | hxz
          · simp [hxz]
          · subst hxz
            rw [if_neg (Nat.lt_irrefl x), if_neg (Nat.lt_irrefl x)] at hbc ⊢
            exact ih ys zs hab hbc
          · rw [if_neg (Nat.lt_asymm hxz), if_pos hxz] at hbc; cases hbc
        · rw [if_neg (Nat.lt_asymm hxy), if_pos hxy] at hab; cases hab

theorem lexLt_total_eq :
    ∀ a b : valtype, lexLt a b = false → lexLt b a = false →
      a.length = b.length → a = b := by
  intro a
  induction a with
  | nil =>
    intro b hab _ hlen
    cases b with
    | nil => rfl
    | cons y ys => simp at hlen
  | cons x xs ih =>
    intro b hab hba hlen
    cases b with
    | nil => simp at hlen
    | cons y ys =>
      simp only [lexLt] at hab hba
      rcases Nat.lt_trichotomy x y with hxy | hxy | hxy
      · rw [if_pos hxy] at hab; cases hab
      · subst hxy
        rw [if_neg (Nat.lt_irrefl x), if_neg (Nat.lt_irrefl x)] at hab hba
        simp only [List.length_cons, Nat.succ_inj] at hlen
        rw [ih ys hab hba hlen]
      · rw [if_neg (Nat.lt_asymm hxy), if_pos hxy] at hba; cases hba

theorem domLt_irrefl (a : valtype) : domLt a a = false := by
  simp [domLt, lexLt_irrefl]

theorem domLt_trans {a b c : valtype} :
    domLt a b = true → domLt b c = true → domLt a c = true := by
  intro hab hbc
  unfold domLt at *
  by_cases h1 : a.length = b.length
  · by_cases h2 : b.length = c.length
    · simp [h1, h2] at hab hbc
      simp [h1.trans h2, lexLt_trans a b c hab hbc]
  -- lengths equal a b, different b c
    · simp [h1, h2] at hbc
      have h3 : a.length ≠ c.length := by omega
      simp [h3]
      omega
  · simp [h1] at hab
    by_cases h2 : b.length = c.length
    · have h3 : a.length ≠ c.length := by omega
      simp [h3]
      omega
    · simp [h2] at hbc
      have h3 : a.length ≠ c.length := by omega
      simp [h3]
      omega

theorem domLt_conn {a b : valtype} :
    domLt a b = false → domLt b a = false → a = b := by
  intro hab hba
  unfold domLt at hab hba
  by_cases h : a.length = b.length
  · simp [h] at hab hba
    exact lexLt_total_eq a b hab hba h
  · simp [h] at hab
    have h' : b.length ≠ a.length := fun hh => h hh.symm
    simp [h'] at hba
    omega

theorem domLt_asymm {a b : valtype} (h : domLt a b = true) : domLt b a = false := by
  by_contra hne
  have hba : domLt b a = true := by
    cases hfb : domLt b a
    · exact absurd hfb hne
    · rfl
  have := domLt_trans h hba
  rw [domLt_irrefl] at this
  cases this

theorem expireLt_irrefl (a : ExpireKey) : expireLt a a = false := by
  simp [expireLt, lexLt_irrefl]

theorem expireLt_trans {a b c : ExpireKey} :
    expireLt a b = true → expireLt b c = true → expireLt a c = true := by
  intro hab hbc
  unfold expireLt at *
  by_cases h1 : a.1 = b.1
  · by_cases h2 : b.1 = c.1
    · simp [h1, h2] at hab hbc
      simp [h1.trans h2, lexLt_trans a.2 b.2 c.2 hab hbc]
    · simp [h2] at hbc
      have h3 : a.1 ≠ c.1 := by omega
      simp [h3]; omega
  · simp [h1] at hab
    by_cases h2 : b.1 = c.1
    · have h3 : a.1 ≠ c.1 := by omega
      simp [h3]; omega
    · simp [h2] at hbc
      have h3 : a.1 ≠ c.1 := by omega
      simp [h3]; omega
theorem lexLt_conn {a b : valtype} (hab : lexLt a b = false) (hba : lexLt b a = false) :
    a = b := by
  induction a generalizing b with
  | nil =>
    cases b with
    | nil => rfl
    | cons y ys => simp [lexLt] at hab
  | cons x xs ih =>
    cases b with
    | nil => simp [lexLt] at hba
    | cons y ys =>
      simp only [lexLt] at hab hba
      rcases Nat.lt_trichotomy x y with hxy | hxy | hxy
      · rw [if_pos hxy] at hab; cases hab
      · subst hxy
        rw [if_neg (Nat.lt_irrefl x), if_neg (Nat.lt_irrefl x)] at hab hba
        rw [ih hab hba]
      · rw [if_neg (Nat.lt_asymm hxy), if_pos hxy] at hba; cases hba

/- Membership lemmas for the sorted-container model. -/

theorem mem_insertSortedBy {α β : Type} (lt : α → α → Bool) (k : α) (v : β) :
    ∀ (l : List (α × β)) (p : α × β),
      p ∈ insertSortedBy lt k v l → p = (k, v) ∨ p ∈ l := by
  intro l
  induction l with
  | nil =>
    intro p hp
    simp [insertSortedBy] at hp
    exact .inl hp
  | cons q rest ih =>
    intro p hp
    obtain ⟨k2, w⟩ := q
    simp only [insertSortedBy] at hp
    by_cases h1 : lt k k2
    · rw [if_pos h1] at hp
      rcases List.mem_cons.mp hp with h | h
      · exact .inl h
      · exact .inr h
    · rw [if_neg h1] at hp
      by_cases h2 : lt k2 k
      · rw [if_pos h2] at hp
        rcases List.mem_cons.mp hp with h | h
        · exact .inr (List.mem_cons.mpr (.inl h))
        · rcases ih p h with h3 | h3
          · exact .inl h3
          · exact .inr (List.mem_cons.mpr (.inr h3))
      · rw [if_neg h2] at hp
        rcases List.mem_cons.mp hp with h | h
        · exact .inl h
        · exact .inr (List.mem_cons.mpr (.inr h))

theorem mem_insertSetBy {α : Type} (lt : α → α → Bool)
    (hconn : ∀ a b, lt a b = false → lt b a = false → a = b) (x y : α) :
    ∀ l : List α, x ∈ insertSetBy lt y l ↔ x = y ∨ x ∈ l := by
  intro l
  induction l with
  | nil => simp [insertSetBy]
  | cons z zs ih =>
    simp only [insertSetBy]
    by_cases h1 : lt y z
    · rw [if_pos h1]
      simp only [List.mem_cons]
    · rw [if_neg h1]
      by_cases h2 : lt z y
      · rw [if_pos h2]
        simp only [List.mem_cons, ih]
        tauto
      · rw [if_neg h2]
        have hzy : z = y :=
          hconn z y (Bool.eq_false_iff.mpr h2) (Bool.eq_false_iff.mpr h1)
        subst hzy
        simp only [List.mem_cons]
        tauto

theorem mem_eraseElem {α : Type} [DecidableEq α] (x y : α) (l : List α) :
    x ∈ eraseElem y l ↔ x ∈ l ∧ x ≠ y := by
  simp [eraseElem, List.mem_filter]

theorem mem_eraseKey {α β : Type} [DecidableEq α] (k : α) (l : List (α × β))
    (p : α × β) : p ∈ eraseKey k l ↔ p ∈ l ∧ p.1 ≠ k := by
  simp [eraseKey, List.mem_filter]

theorem lookupAssoc_insertSortedBy_self {α β : Type} [DecidableEq α]
    (lt : α → α → Bool) (hirr : ∀ x, lt x x = false) (k : α) (v : β) :
    ∀ l : List (α × β), lookupAssoc k (insertSortedBy lt k v l) = some v := by
  intro l
  induction l with
  | nil => simp [insertSortedBy, lookupAssoc]
  | cons q rest ih =>
    obtain ⟨k2, w⟩ := q
    simp only [insertSortedBy]
    by_cases h1 : lt k k2
    · rw [if_pos h1]
      simp [lookupAssoc]
    · rw [if_neg h1]
      by_cases h2 : lt k2 k
      · rw [if_pos h2]
        have hne : k2 ≠ k := by
          intro he
          subst he
          rw [hirr] at h2
          exact absurd h2 (by simp)
        simp [lookupAssoc, hne, ih]
      · rw [if_neg h2]
        simp [lookupAssoc]

/- The cache invariant (C5). -/

theorem noOverlap_iff (c : CDomainCache) :
    noOverlap c = true ↔ ∀ p ∈ c.entries, p.1 ∉ c.deleted := by
  simp [noOverlap, List.all_eq_true]

theorem noOverlap_set (c : CDomainCache) (d : valtype) (v : CDomainData)
    (h : noOverlap c = true) : noOverlap (c.set d v) = true := by
  rw [noOverlap_iff] at h ⊢
  intro p hp
  simp only [CDomainCache.set] at hp ⊢
  intro hdel
  rw [mem_eraseElem] at hdel
  rcases mem_insertSortedBy domLt d v c.entries p hp with h1 | h1
  · subst h1
    exact hdel.2 rfl
  · exact h p h1 hdel.1

theorem noOverlap_remove (c : CDomainCache) (d : valtype)
    (h : noOverlap c = true) : noOverlap (c.remove d) = true := by
  rw [noOverlap_iff] at h ⊢
  intro p hp
  simp only [CDomainCache.remove] at hp ⊢
  rw [mem_eraseKey] at hp
  intro hdel
  rw [mem_insertSetBy lexLt (fun a b hab hba => lexLt_conn hab hba)] at hdel
  rcases hdel with h1 | h1
  · exact hp.2 h1
  · exact h p hp.1 h1

theorem runOps_noOverlap :
    ∀ (ops : List CacheOp) (c : CDomainCache),
      noOverlap c = true → noOverlap (runOps ops c) = true := by
  intro ops
  induction ops with
  | nil => intro c h; exact h
  | cons op rest ih =>
    intro c h
    cases op with
    | setOp d v => exact ih (c.set d v) (noOverlap_set c d v h)
    | removeOp d => exact ih (c.remove d) (noOverlap_remove c d h)

/-- C5: for every finite sequence of `set`/`remove` calls applied to an
overlay cache starting from the empty cache, after every call no domain key
is present in both the `entries` map and the `deleted` set simultaneously
(every prefix of a call sequence is itself a call sequence, so the statement
over all sequences covers every intermediate state). -/
theorem cache_entries_deleted_disjoint :
    ∀ ops : List CacheOp, noOverlap (runOps ops emptyCache) = true :=
  fun ops => runOps_noOverlap ops emptyCache rfl

/-- C7: installing an expiry-index entry with `addExpireIndex(d, h)` and then
`removeExpireIndex(d, h)` on a child cache and apply-merging that child into
any parent leaves the parent's pending expiry-index entry for `(h, d)`
present and mapped to false ("remove"), not absent: last write wins, the
calls do not cancel out. -/
theorem expireIndex_roundtrip_last_write_wins :
    ∀ (parent : CDomainCache) (d : valtype) (h : Nat),
      lookupAssoc (h, d)
        ((parent.apply
            ((emptyCache.addExpireIndex d h).removeExpireIndex d h)).expireIndex) =
        some false := by
  intro parent d h
  have hchild :
      ((emptyCache.addExpireIndex d h).removeExpireIndex d h).expireIndex =
        [((h, d), false)] := by
    simp [emptyCache, CDomainCache.addExpireIndex, CDomainCache.removeExpireIndex,
      insertSortedBy, expireLt_irrefl]
  simp only [CDomainCache.apply, hchild]
  simp only [emptyCache, CDomainCache.addExpireIndex, CDomainCache.removeExpireIndex]
  simp only [List.foldl_nil, List.foldl_cons]
  exact lookupAssoc_insertSortedBy_self expireLt expireLt_irrefl (h, d) false _

/- updateDomainsForHeight (C1). -/

theorem lookupAssoc_eq_none {α β : Type} [DecidableEq α] (k : α) :
    ∀ l : List (α × β), (∀ p ∈ l, p.1 ≠ k) → lookupAssoc k l = none := by
  intro l
  induction l with
  | nil => intro _; rfl
  | cons q rest ih =>
    intro hk
    obtain ⟨k2, v⟩ := q
    have : k2 ≠ k := hk (k2, v) (List.mem_cons_self _ _)
    simp only [lookupAssoc, if_neg this]
    exact ih fun p hp => hk p (List.mem_cons.mpr (.inr hp))

theorem lookupAssoc_append_left_none {α β : Type} [DecidableEq α] (k : α)
    (l1 l2 : List (α × β)) (h : ∀ p ∈ l1, p.1 ≠ k) :
    lookupAssoc k (l1 ++ l2) = lookupAssoc k l2 := by
  induction l1 with
  | nil => rfl
  | cons q rest ih =>
    obtain ⟨k2, v⟩ := q
    have hne : k2 ≠ k := h (k2, v) (List.mem_cons_self _ _)
    simp only [List.cons_append, lookupAssoc, if_neg hne]
    exact ih fun p hp => h p (List.mem_cons.mpr (.inr hp))

theorem expireLt_height_le {a b : ExpireKey} (h : expireLt a b = true) :
    a.1 ≤ b.1 := by
  unfold expireLt at h
  by_cases he : a.1 = b.1
  · omega
  · simp [he] at h; omega

theorem lexLt_nil_right (a : valtype) : lexLt a [] = false := by
  cases a <;> rfl

theorem expireLt_seek_iff (p : ExpireKey) (h : Nat) :
    expireLt p (h, []) = true ↔ p.1 < h := by
  unfold expireLt
  by_cases he : p.1 = h
  · simp [he, lexLt_nil_right]
  · simp [he]

theorem dropWhile_head_false {α : Type} (f : α → Bool) :
    ∀ (l : List α) (x : α) (rest : List α),
      l.dropWhile f = x :: rest → f x = false := by
  intro l
  induction l with
  | nil => intro x rest h; cases h
  | cons y ys ih =>
    intro x rest h
    by_cases hy : f y
    · rw [List.dropWhile_cons_of_pos hy] at h
      exact ih x rest h
    · rw [List.dropWhile_cons_of_neg hy] at h
      cases h
      exact Bool.eq_false_iff.mpr hy

theorem applyExpireOps_mem (h : Nat) :
    ∀ (l : List (ExpireKey × Bool)) (ds : List valtype) (d : valtype),
      List.Pairwise (fun p q => expireLt p.1 q.1 = true) l →
      (∀ p ∈ l, h ≤ p.1.1) →
      (d ∈ applyExpireOps h l ds ↔
        lookupAssoc (h, d) l = some true ∨
          (d ∈ ds ∧ lookupAssoc (h, d) l ≠ some false)) := by
  intro l
  induction l with
  | nil =>
    intro ds d _ _
    simp [applyExpireOps, lookupAssoc]
  | cons q rest ih =>
    intro ds d hpw hmin
    obtain ⟨⟨kh, kd⟩, b⟩ := q
    rw [List.pairwise_cons] at hpw
    by_cases hgt : h < kh
    · have hrest : ∀ p ∈ rest, p.1 ≠ ((h, d) : ExpireKey) := by
        intro p hp he
        have := expireLt_height_le (hpw.1 p hp)
        rw [he] at this
        simp at this
        omega
      have hlook : lookupAssoc ((h, d) : ExpireKey) (((kh, kd), b) :: rest) = none := by
        apply lookupAssoc_eq_none
        intro p hp
        rcases List.mem_cons.mp hp with hhd | htl
        · subst hhd
          intro he
          have : kh = h := congrArg Prod.fst he
          omega
        · exact hrest p htl
      simp only [applyExpireOps, if_pos hgt, hlook]
      simp
    · have hkh : kh = h := by
        have := hmin ((kh, kd), b) (List.mem_cons_self _ _)
        simp at this
        omega
      have hstep :
          applyExpireOps h (((kh, kd), b) :: rest) ds =
            applyExpireOps h rest
              (if b then insertSetBy lexLt kd ds else eraseElem kd ds) := by
        simp [applyExpireOps, hgt]
      rw [hstep]
      have ihr :=
        ih (if b then insertSetBy lexLt kd ds else eraseElem kd ds) d hpw.2
          (fun p hp => hmin p (List.mem_cons.mpr (.inr hp)))
      by_cases hd : kd = d
      · have hkey : ((kh, kd) : ExpireKey) = (h, d) := by rw [hkh, hd]
        have hlookrest : lookupAssoc ((h, d) : ExpireKey) rest = none := by
          apply lookupAssoc_eq_none
          intro p hp he
          have hle := hpw.1 p hp
          rw [he, hkey] at hle
          rw [expireLt_irrefl] at hle
          cases hle
        have hlook :
            lookupAssoc ((h, d) : ExpireKey) (((kh, kd), b) :: rest) = some b := by
          simp [lookupAssoc, hkey]
        rw [hlook, ihr, hlookrest]
        cases b with
        | true =>
          have hmem : d ∈ insertSetBy lexLt kd ds := by
            rw [mem_insertSetBy lexLt (fun a b hab hba => lexLt_conn hab hba)]
            exact .inl hd.symm
          simp [hmem]
        | false =>
          have hmem : d ∉ eraseElem kd ds := by
            rw [mem_eraseElem]
            intro hc
            exact hc.2 hd.symm
          simp [hmem]
      · have hkey : ((kh, kd) : ExpireKey) ≠ (h, d) := by
          intro he
          exact hd (congrArg Prod.snd he)
        have hlook :
            lookupAssoc ((h, d) : ExpireKey) (((kh, kd), b) :: rest) =
              lookupAssoc ((h, d) : ExpireKey) rest := by
          simp [lookupAssoc, hkey]
        have hds : (d ∈ if b then insertSetBy lexLt kd ds else eraseElem kd ds) ↔
            d ∈ ds := by
          cases b with
          | true =>
            rw [if_pos rfl]
            rw [mem_insertSetBy lexLt (fun a b hab hba => lexLt_conn hab hba)]
            constructor
            · intro hc
              rcases hc with hc | hc
              · exact absurd hc.symm hd
              · exact hc
            · exact fun hc => .inr hc
          | false =>
            rw [if_neg Bool.false_ne_true]
            rw [mem_eraseElem]
            constructor
            · exact fun hc => hc.1
            · intro hc
              exact ⟨hc, fun he => hd he.symm⟩
        rw [hlook, ihr, hds]
/-- C1 counterexample: a cache holding the single pending expiry-index
change `(0, [97]) -> true` — key height 0 ≤ 1 — leaves
`updateDomainsForHeight (1, {})` unchanged (empty).  The function seeks to
`lower_bound ((1, []))`, which skips every key of height below 1, so a
pending change whose key height is strictly below the given height is not
applied — contradicting the claim that all changes with key height ≤ the
given height are applied. -/
theorem updateDomainsForHeight_le_counterexample :
    lookupAssoc ((0, [97]) : ExpireKey)
        (emptyCache.addExpireIndex [97] 0).expireIndex = some true ∧
      (emptyCache.addExpireIndex [97] 0).updateDomainsForHeight 1 [] = [] := by
  constructor
  · rfl
  · rfl

/-- C1 (amended): for every cache whose pending expiry-index map is sorted
by its key order (the `std::map` representation invariant),
`updateDomainsForHeight (h, domains)` applies exactly those pending
expiry-index changes whose key height EQUALS `h`, in ascending key order —
a domain is in the resulting working set iff its `(h, domain)` entry is
mapped to true, or it was in the given set and its `(h, domain)` entry is
not mapped to false; entries with key height ≠ h (below as well as above)
are left unapplied. -/
theorem updateDomainsForHeight_applies_exactly_height (c : CDomainCache)
    (hs : List.Pairwise (fun p q => expireLt p.1 q.1 = true) c.expireIndex)
    (h : Nat) (ds : List valtype) (d : valtype) :
    d ∈ c.updateDomainsForHeight h ds ↔
      lookupAssoc ((h, d) : ExpireKey) c.expireIndex = some true ∨
        (d ∈ ds ∧ lookupAssoc ((h, d) : ExpireKey) c.expireIndex ≠ some false) := by
  unfold CDomainCache.updateDomainsForHeight
  have htake :
      ∀ p ∈ c.expireIndex.takeWhile (fun p => expireLt p.1 (h, [])),
        p.1 ≠ ((h, d) : ExpireKey) := by
    intro p hp he
    have hmem := List.mem_takeWhile_imp hp
    simp only [expireLt_seek_iff] at hmem
    rw [he] at hmem
    simp at hmem
  have hlookup :
      lookupAssoc ((h, d) : ExpireKey) c.expireIndex =
        lookupAssoc ((h, d) : ExpireKey)
          (c.expireIndex.dropWhile (fun p => expireLt p.1 (h, []))) := by
    conv_lhs =>
      rw [← List.takeWhile_append_dropWhile (fun p => expireLt p.1 (h, []))
            c.expireIndex]
    exact lookupAssoc_append_left_none _ _ _ htake
  rw [hlookup]
  apply applyExpireOps_mem
  · exact hs.sublist (List.dropWhile_sublist _)
  · intro p hp
    rcases hdrop : c.expireIndex.dropWhile (fun p => expireLt p.1 (h, [])) with
      _ | ⟨x, rest⟩
    · rw [hdrop] at hp; cases hp
    · rw [hdrop] at hp
      have hx := dropWhile_head_false _ c.expireIndex x rest hdrop
      simp only [] at hx
      have hxh : ¬ x.1.1 < h := by
        intro hlt
        rw [(expireLt_seek_iff x.1 h).mpr hlt] at hx
        cases hx
      have hpw2 : List.Pairwise (fun p q => expireLt p.1 q.1 = true) (x :: rest) := by
        rw [← hdrop]
        exact hs.sublist (List.dropWhile_sublist _)
      rcases List.mem_cons.mp hp with he | htl
      · subst he; omega
      · have hlt := (List.pairwise_cons.mp hpw2).1 p htl
        have := expireLt_height_le hlt
        omega

/-- C1 witness: the amended theorem applied at a concrete cache holding
`(5, [97]) -> true` and height 5. -/
theorem updateDomainsForHeight_applies_exactly_height_witness :
    [97] ∈ (emptyCache.addExpireIndex [97] 5).updateDomainsForHeight 5 [] ↔
      lookupAssoc ((5, [97]) : ExpireKey)
          (emptyCache.addExpireIndex [97] 5).expireIndex = some true ∨
        ([97] ∈ ([] : List valtype) ∧
          lookupAssoc ((5, [97]) : ExpireKey)
              (emptyCache.addExpireIndex [97] 5).expireIndex ≠ some false) :=
  updateDomainsForHeight_applies_exactly_height _ (by decide) 5 [] [97]

/-- C6: the domain comparator `CDomainCache::DomainComparator` is a strict
weak ordering over byte sequences (irreflexive, transitive, and any two
incomparable domains are equal, so incomparability is trivially an
equivalence); domains of different byte lengths order by length (shorter
first regardless of content), and domains of equal length order by standard
lexicographic byte comparison. -/
theorem domainComparator_strict_weak_order :
    (∀ a : valtype, domLt a a = false) ∧
    (∀ a b c : valtype, domLt a b = true → domLt b c = true → domLt a c = true) ∧
    (∀ a b : valtype, domLt a b = false → domLt b a = false → a = b) ∧
    (∀ a b : valtype, a.length ≠ b.length → (domLt a b = true ↔ a.length < b.length)) ∧
    (∀ a b : valtype, a.length = b.length → (domLt a b = true ↔ lexLt a b = true)) := by
  refine ⟨domLt_irrefl, fun a b c hab hbc => domLt_trans hab hbc,
    fun a b => domLt_conn, ?_, ?_⟩
  · intro a b h
    simp [domLt, h]
  · intro a b h
    simp [domLt, h]

/-- C6 witness: the length-first clause of the comparator theorem at the
concrete domains `[5]` and `[1, 1]`. -/
theorem domainComparator_strict_weak_order_witness :
    domLt [5] [1, 1] = true ↔ ([5] : valtype).length < ([1, 1] : valtype).length :=
  domainComparator_strict_weak_order.2.2.2.1 [5] [1, 1] (by decide)

/- ExpireDomains guard (C10). -/

/-- C10: for every block height h ≥ 1 at which the consensus rule set's
domain-expiration depth exceeds h itself, `ExpireDomains` returns success,
reports an empty expired-domain set, and performs no modification to the
view or the undo record: the guard returns before any height subtraction or
coin spend is attempted. -/
theorem expireDomains_depth_guard_no_change
    (expirationDepth : Nat → Nat) (nHeight : Nat) (view : CCoinsView)
    (undo : List DomScript) (h1 : 1 ≤ nHeight)
    (h2 : nHeight < expirationDepth nHeight) :
    ExpireDomains expirationDepth nHeight view undo = some (view, undo, []) := by
  unfold ExpireDomains
  have hne : ¬ nHeight = 0 := by omega
  simp [hne, h2]

/-- C10 witness: the guard theorem at height 2 with constant expiration
depth 5 over the trivial view. -/
theorem expireDomains_depth_guard_no_change_witness :
    ExpireDomains (fun _ => 5) 2 emptyView [] = some (emptyView, [], []) :=
  expireDomains_depth_guard_no_change (fun _ => 5) 2 emptyView []
    (by decide) (by decide)

/- ExpireEntry serialization (C9). -/

theorem leBytesToNat_natToLeBytes :
    ∀ (k n : Nat), n < 256 ^ k → leBytesToNat (natToLeBytes k n) = n := by
  intro k
  induction k with
  | zero =>
    intro n h
    simp [Nat.pow_zero] at h
    simp [natToLeBytes, leBytesToNat]
    omega
  | succ k ih =>
    intro n h
    have hdiv : n / 256 < 256 ^ k := by
      rw [Nat.div_lt_iff_lt_mul (by norm_num : 0 < 256)]
      calc n < 256 ^ (k + 1) := h
        _ = 256 ^ k * 256 := by rw [Nat.pow_succ]
    simp only [natToLeBytes, leBytesToNat]
    rw [ih (n / 256) hdiv]
    omega

theorem readCompactSize_writeCompactSize (n : Nat) (rest : List Nat)
    (h : n < 2 ^ 64) :
    readCompactSize (writeCompactSize n ++ rest) = some (n, rest) := by
  unfold writeCompactSize
  by_cases h1 : n < 253
  · rw [if_pos h1]
    simp only [List.cons_append, List.nil_append, readCompactSize]
    rw [if_pos h1]
  · rw [if_neg h1]
    by_cases h2 : n ≤ 0xFFFF
    · rw [if_pos h2]
      simp only [natToLeBytes, List.cons_append, List.nil_append, readCompactSize,
        leBytesToNat]
      norm_num
      omega
    · rw [if_neg h2]
      by_cases h3 : n ≤ 0xFFFFFFFF
      · rw [if_pos h3]
        simp only [natToLeBytes, List.cons_append, List.nil_append, readCompactSize,
          leBytesToNat]
        norm_num
        omega
      · rw [if_neg h3]
        simp only [natToLeBytes, List.cons_append, List.nil_append, readCompactSize,
          leBytesToNat]
        norm_num
        omega

theorem deserValtype_serValtype (d : valtype) (rest : List Nat)
    (h : d.length ≤ MAX_SIZE) :
    deserValtype (serValtype d ++ rest) = some (d, rest) := by
  unfold serValtype deserValtype
  rw [List.append_assoc]
  rw [readCompactSize_writeCompactSize d.length (d ++ rest)
      (by unfold MAX_SIZE at h; omega)]
  have h1 : ¬ MAX_SIZE < d.length := by omega
  have h2 : ¬ (d ++ rest).length < d.length := by
    rw [List.length_append]; omega
  simp only [if_neg h1, if_neg h2]
  rw [List.take_left, List.drop_left]

/-- C9: expiry-index keys serialize with the height in big-endian byte
order, so byte-wise (lexicographic) comparison of serialized keys agrees
with numeric height ordering — for h1 < h2 (32-bit heights) the serialized
form of `(h1, d1)` compares strictly below that of `(h2, d2)` regardless of
the domains — and deserializing a serialized key returns the original
(height, domain) pair. -/
theorem serExpireEntry_order_and_roundtrip :
    (∀ (h1 h2 : Nat) (d1 d2 : valtype), h1 < h2 → h2 < 2 ^ 32 →
      lexLt (serExpireEntry (h1, d1)) (serExpireEntry (h2, d2)) = true) ∧
    (∀ (h : Nat) (d : valtype) (rest : List Nat), h < 2 ^ 32 →
      d.length ≤ MAX_SIZE →
      deserExpireEntry (serExpireEntry (h, d) ++ rest) = some ((h, d), rest)) := by
  constructor
  · intro h1 h2 d1 d2 hlt hh
    simp only [serExpireEntry, natToBeBytes4, List.cons_append, lexLt]
    split_ifs <;> first | rfl | (exfalso; omega)
  · intro h d rest hh hd
    simp only [serExpireEntry, natToBeBytes4, List.cons_append, List.nil_append,
      List.append_assoc, deserExpireEntry]
    rw [deserValtype_serValtype d rest hd]
    simp only [beBytes4ToNat, Option.some.injEq, Prod.mk.injEq, and_true]
    omega

/-- C9 witness: the order half at heights 1 < 2 and the round trip at
`(7, [1, 2])`. -/
theorem serExpireEntry_order_and_roundtrip_witness :
    lexLt (serExpireEntry (1, [9])) (serExpireEntry (2, [])) = true ∧
      deserExpireEntry (serExpireEntry (7, [1, 2]) ++ []) = some ((7, [1, 2]), []) :=
  ⟨serExpireEntry_order_and_roundtrip.1 1 2 [9] [] (by decide) (by decide),
    serExpireEntry_order_and_roundtrip.2 7 [1, 2] [] (by decide) (by decide)⟩

/- Mempool registry (C8). -/

theorem checkTxOut_false_iff (p : CDomainMemPool) (t : Nat) (s : DomScript) :
    checkTxOut p t s = false ↔ outputConflicts p t s := by
  cases s with
  | nonDomain =>
    simp [checkTxOut, outputConflicts]
  | opNew hsh =>
    simp only [checkTxOut, outputConflicts]
    cases hl : lookupAssoc hsh p.mapDomainNews with
    | none => simp [hl]
    | some t2 =>
      by_cases he : t2 = t
      · simp [hl, he]
      · simp [hl, he]
  | opFirstupdate d r v =>
    simp only [checkTxOut, outputConflicts]
    cases hr : p.registersDomain d with
    | true => simp [hr]
    | false => simp [hr]
  | opUpdate d v =>
    simp only [checkTxOut, outputConflicts]
    cases hr : p.updatesDomain d with
    | true => simp [hr]
    | false => simp [hr]

/-- C8 counterexample: `checkTx` returns true for a transaction that is not
flagged as a Beyondcoin transaction even though one of its outputs carries a
FIRSTUPDATE whose domain has a pending registration in the pool — a
conflicting domain-operation output with `checkTx = true`, refuting the
claimed unconditional "false iff some output conflicts". -/
theorem checkTx_conflict_iff_counterexample :
    CDomainMemPool.checkTx ⟨[([0], 5)], [], []⟩
        ⟨1, false, false, [], [⟨0, DomScript.opFirstupdate [0] [] []⟩]⟩ = true ∧
      outputConflicts ⟨[([0], 5)], [], []⟩ 1 (DomScript.opFirstupdate [0] [] []) := by
  constructor
  · rfl
  · right; left
    exact ⟨[0], [], [], rfl, by decide⟩

/-- C8 (amended): for every transaction FLAGGED AS A BEYONDCOIN transaction,
`checkTx` returns false iff some domain-operation output conflicts (NEW:
commitment hash mapped to a different txid; FIRSTUPDATE: pending
registration of the domain; UPDATE: pending update of the domain); a
transaction not flagged as Beyondcoin is always accepted by `checkTx`, even
if a domain output would conflict.  In particular a second FIRSTUPDATE for a
domain is rejected while an earlier pooled registration of the same domain
is pending, and accepted once that registration is removed via `remove`. -/
theorem checkTx_conflict_iff :
    (∀ (p : CDomainMemPool) (tx : Tx), tx.isBeyondcoin = true →
      (p.checkTx tx = false ↔ ∃ o ∈ tx.vout, outputConflicts p tx.txid o.script)) ∧
    (∀ (p : CDomainMemPool) (tx : Tx), tx.isBeyondcoin = false →
      p.checkTx tx = true) ∧
    (∀ (d r v : valtype) (t1 t2 : Nat) (e : CTxMemPoolEntry),
      e.isDomainRegistration = true → e.isDomainUpdate = false → e.domain = d →
      CDomainMemPool.checkTx ⟨[(d, t1)], [], []⟩
          ⟨t2, true, false, [], [⟨0, DomScript.opFirstupdate d r v⟩]⟩ = false ∧
        CDomainMemPool.checkTx (CDomainMemPool.remove ⟨[(d, t1)], [], []⟩ e)
          ⟨t2, true, false, [], [⟨0, DomScript.opFirstupdate d r v⟩]⟩ = true) := by
  refine ⟨?_, ?_, ?_⟩
  · intro p tx hb
    unfold CDomainMemPool.checkTx
    rw [hb]
    simp only [Bool.true_eq_false, if_false, List.all_eq_false]
    constructor
    · rintro ⟨o, ho, hfo⟩
      refine ⟨o, ho, ?_⟩
      rw [← checkTxOut_false_iff]
      cases hc : checkTxOut p tx.txid o.script
      · rfl
      · exact absurd hc hfo
    · rintro ⟨o, ho, hconf⟩
      refine ⟨o, ho, ?_⟩
      rw [← checkTxOut_false_iff] at hconf
      rw [hconf]
      simp
  · intro p tx hb
    unfold CDomainMemPool.checkTx
    rw [hb]
    rfl
  · intro d r v t1 t2 e hreg hupd hdom
    constructor
    · unfold CDomainMemPool.checkTx
      simp only [if_neg (by simp : ¬ (true = false))]
      simp only [List.all_cons, List.all_nil, Bool.and_true]
      unfold checkTxOut CDomainMemPool.registersDomain
      simp [lookupAssoc]
    · unfold CDomainMemPool.remove
      rw [hreg, hupd, hdom]
      simp only [if_pos rfl, if_neg Bool.false_ne_true]
      unfold CDomainMemPool.checkTx
      simp only [if_neg (by simp : ¬ (true = false))]
      simp only [List.all_cons, List.all_nil, Bool.and_true]
      unfold checkTxOut CDomainMemPool.registersDomain
      simp [eraseKey, lookupAssoc]

/-- C8 witness: the second-FIRSTUPDATE scenario of the mempool theorem at a
concrete pool holding a pending registration for domain `[7]`. -/
theorem checkTx_conflict_iff_witness :
    CDomainMemPool.checkTx ⟨[([7], 1)], [], []⟩
        ⟨2, true, false, [], [⟨0, DomScript.opFirstupdate [7] [] []⟩]⟩ = false ∧
      CDomainMemPool.checkTx
        (CDomainMemPool.remove ⟨[([7], 1)], [], []⟩ ⟨false, [], true, false, [7]⟩)
        ⟨2, true, false, [], [⟨0, DomScript.opFirstupdate [7] [] []⟩]⟩ = true :=
  checkTx_conflict_iff.2.2 [7] [] [] 1 2 ⟨false, [], true, false, [7]⟩ rfl rfl rfl

/- CheckDomainTransaction on a FIRSTUPDATE transaction (C3, C4). -/

theorem checkDomainTx_firstupdate_characterization
    (expD minAmt : Nat → Nat) (h160 : valtype → valtype)
    (getDom : valtype → Option CDomainData)
    (t prevH nHeight val : Nat) (hsh nm rnd v : valtype)
    (hval : ¬ val < minAmt nHeight)
    (hnm : ¬ nm.length > 255) (hv : ¬ v.length > 1023) (fMempool : Bool) :
    CheckDomainTransaction expD minAmt h160
        ⟨t, true, false, [⟨true, DomScript.opNew hsh, prevH⟩],
          [⟨val, DomScript.opFirstupdate nm rnd v⟩]⟩ nHeight getDom fMempool =
      (if fMempool = false ∧ prevH = MEMPOOL_HEIGHT then
        .error .maturityAssertFailed
      else if fMempool = false ∧ nHeight < (prevH + MIN_FIRSTUPDATE_DEPTH) % 2 ^ 32 then
        .error .firstupdateNotMature
      else if rnd.length > 20 then .error .firstupdateRandTooLarge
      else if h160 (rnd ++ nm) ≠ hsh then .error .firstupdateHashMismatch
      else
        match getDom nm with
        | some oldDomain =>
          if oldDomain.isExpiredAt expD nHeight = false then
            .error .firstupdateExistingDomain
          else .ok ()
        | none => .ok ()) := by
  unfold CheckDomainTransaction
  simp only [scanDomainInputs, scanDomainOutputs, DomScript.isDomainOp]
  norm_num
  rw [if_neg hval, if_neg hnm, if_neg hv]

theorem firstupdateTail_cases (expD : Nat → Nat) (h160 : valtype → valtype)
    (getDom : valtype → Option CDomainData) (nHeight : Nat) (nm rnd hsh : valtype) :
    ((if rnd.length > 20 then (.error .firstupdateRandTooLarge : Except CheckErr Unit)
      else if h160 (rnd ++ nm) ≠ hsh then .error .firstupdateHashMismatch
      else
        match getDom nm with
        | some oldDomain =>
          if oldDomain.isExpiredAt expD nHeight = false then
            .error .firstupdateExistingDomain
          else .ok ()
        | none => .ok ()) ≠ .error .firstupdateNotMature) ∧
    ((if rnd.length > 20 then (.error .firstupdateRandTooLarge : Except CheckErr Unit)
      else if h160 (rnd ++ nm) ≠ hsh then .error .firstupdateHashMismatch
      else
        match getDom nm with
        | some oldDomain =>
          if oldDomain.isExpiredAt expD nHeight = false then
            .error .firstupdateExistingDomain
          else .ok ()
        | none => .ok ()) = .ok () →
      rnd.length ≤ 20 ∧ h160 (rnd ++ nm) = hsh) := by
  constructor
  · split_ifs with h1 h2
    · simp
    · simp
    · cases hgd : getDom nm with
      | none => simp
      | some oldDomain =>
        simp only []
        split_ifs <;> simp
  · intro hok
    by_cases h1 : rnd.length > 20
    · rw [if_pos h1] at hok
      cases hok
    · rw [if_neg h1] at hok
      by_cases h2 : h160 (rnd ++ nm) ≠ hsh
      · rw [if_pos h2] at hok
        cases hok
      · exact ⟨by omega, not_not.mp h2⟩

/-- C3: on a FIRSTUPDATE transaction spending a NEW coin of height
`prevH` (shaped so that every earlier validation rule passes), validation
without the relaxed/mempool flag rejects with the "not mature" reason
exactly when `prevH + MIN_FIRSTUPDATE_DEPTH > nHeight` (with
`MIN_FIRSTUPDATE_DEPTH = 12`), and with the relaxed/mempool flag set the
maturity check is skipped — the "not mature" rejection can never occur. -/
theorem firstupdate_maturity_check
    (expD minAmt : Nat → Nat) (h160 : valtype → valtype)
    (getDom : valtype → Option CDomainData)
    (t prevH nHeight val : Nat) (hsh nm rnd v : valtype)
    (hval : ¬ val < minAmt nHeight)
    (hnm : ¬ nm.length > 255) (hv : ¬ v.length > 1023)
    (hprev : prevH ≠ MEMPOOL_HEIGHT)
    (hbound : prevH + MIN_FIRSTUPDATE_DEPTH < 2 ^ 32) :
    (CheckDomainTransaction expD minAmt h160
        ⟨t, true, false, [⟨true, DomScript.opNew hsh, prevH⟩],
          [⟨val, DomScript.opFirstupdate nm rnd v⟩]⟩ nHeight getDom false =
        .error .firstupdateNotMature ↔
      nHeight < prevH + MIN_FIRSTUPDATE_DEPTH) ∧
    CheckDomainTransaction expD minAmt h160
        ⟨t, true, false, [⟨true, DomScript.opNew hsh, prevH⟩],
          [⟨val, DomScript.opFirstupdate nm rnd v⟩]⟩ nHeight getDom true ≠
      .error .firstupdateNotMature := by
  rw [checkDomainTx_firstupdate_characterization expD minAmt h160 getDom
      t prevH nHeight val hsh nm rnd v hval hnm hv false,
    checkDomainTx_firstupdate_characterization expD minAmt h160 getDom
      t prevH nHeight val hsh nm rnd v hval hnm hv true]
  constructor
  · rw [if_neg (by simp [hprev])]
    rw [Nat.mod_eq_of_lt hbound]
    by_cases hm : nHeight < prevH + MIN_FIRSTUPDATE_DEPTH
    · rw [if_pos ⟨rfl, hm⟩]
      simp [hm]
    · rw [if_neg (by simp [hm])]
      constructor
      · intro hc
        exact absurd hc (firstupdateTail_cases expD h160 getDom nHeight nm rnd hsh).1
      · intro hc
        exact absurd hc hm
  · rw [if_neg (by simp), if_neg (by simp)]
    exact (firstupdateTail_cases expD h160 getDom nHeight nm rnd hsh).1

/-- C3 witness: the maturity theorem at concrete inputs — a NEW coin of
height 100, target height 105 < 100 + 12, minimum amount 0. -/
theorem firstupdate_maturity_check_witness :
    (CheckDomainTransaction (fun _ => 10) (fun _ => 0) (fun _ => [])
        ⟨1, true, false, [⟨true, DomScript.opNew [], 100⟩],
          [⟨7, DomScript.opFirstupdate [5] [] []⟩]⟩ 105 (fun _ => none) false =
        .error .firstupdateNotMature ↔
      105 < 100 + MIN_FIRSTUPDATE_DEPTH) ∧
    CheckDomainTransaction (fun _ => 10) (fun _ => 0) (fun _ => [])
        ⟨1, true, false, [⟨true, DomScript.opNew [], 100⟩],
          [⟨7, DomScript.opFirstupdate [5] [] []⟩]⟩ 105 (fun _ => none) true ≠
      .error .firstupdateNotMature :=
  firstupdate_maturity_check (fun _ => 10) (fun _ => 0) (fun _ => [])
    (fun _ => none) 1 100 105 7 [] [5] [] [] (by decide) (by decide) (by decide)
    (by decide) (by decide)

/-- C4: on a FIRSTUPDATE transaction spending a NEW coin committed to
`hsh` (shaped so that every earlier validation rule passes),
`CheckDomainTransaction` accepts only if the revealed salt is at most 20
bytes and `hash160 (salt ++ domainName)` equals the committed hash; whenever
`hash160 (salt ++ domainName)` differs from the commitment — for example
after flipping a single bit of the salt so that the hash changes — the
transaction is rejected. -/
theorem firstupdate_salt_commitment
    (expD minAmt : Nat → Nat) (h160 : valtype → valtype)
    (getDom : valtype → Option CDomainData)
    (t prevH nHeight val : Nat) (hsh nm rnd v : valtype)
    (hval : ¬ val < minAmt nHeight)
    (hnm : ¬ nm.length > 255) (hv : ¬ v.length > 1023) (fMempool : Bool) :
    (CheckDomainTransaction expD minAmt h160
        ⟨t, true, false, [⟨true, DomScript.opNew hsh, prevH⟩],
          [⟨val, DomScript.opFirstupdate nm rnd v⟩]⟩ nHeight getDom fMempool =
        .ok () →
      rnd.length ≤ 20 ∧ h160 (rnd ++ nm) = hsh) ∧
    (h160 (rnd ++ nm) ≠ hsh →
      CheckDomainTransaction expD minAmt h160
        ⟨t, true, false, [⟨true, DomScript.opNew hsh, prevH⟩],
          [⟨val, DomScript.opFirstupdate nm rnd v⟩]⟩ nHeight getDom fMempool ≠
        .ok ()) := by
  rw [checkDomainTx_firstupdate_characterization expD minAmt h160 getDom
    t prevH nHeight val hsh nm rnd v hval hnm hv fMempool]
  by_cases h1 : fMempool = false ∧ prevH = MEMPOOL_HEIGHT
  · rw [if_pos h1]
    exact ⟨fun hok => (nomatch hok), fun _ hok => (nomatch hok)⟩
  · rw [if_neg h1]
    by_cases h2 : fMempool = false ∧ nHeight < (prevH + MIN_FIRSTUPDATE_DEPTH) % 2 ^ 32
    · rw [if_pos h2]
      exact ⟨fun hok => (nomatch hok), fun _ hok => (nomatch hok)⟩
    · rw [if_neg h2]
      refine ⟨(firstupdateTail_cases expD h160 getDom nHeight nm rnd hsh).2, ?_⟩
      intro hne hok
      rcases (firstupdateTail_cases expD h160 getDom nHeight nm rnd hsh).2 hok with
        ⟨_, heq⟩
      exact hne heq

/-- C4 witness: the commitment theorem at concrete inputs — `hash160`
instantiated as a function of the salt-plus-domain bytes, an accepting salt
and a mismatching commitment. -/
theorem firstupdate_salt_commitment_witness :
    (CheckDomainTransaction (fun _ => 10) (fun _ => 0) (fun w => w.take 20)
        ⟨1, true, false, [⟨true, DomScript.opNew [3], 100⟩],
          [⟨7, DomScript.opFirstupdate [5] [2] []⟩]⟩ 120 (fun _ => none) false =
        .ok () →
      ([2] : valtype).length ≤ 20 ∧ (([2] ++ [5] : valtype).take 20 = [3])) ∧
    ((([2] ++ [5] : valtype).take 20 ≠ [3]) →
      CheckDomainTransaction (fun _ => 10) (fun _ => 0) (fun w => w.take 20)
        ⟨1, true, false, [⟨true, DomScript.opNew [3], 100⟩],
          [⟨7, DomScript.opFirstupdate [5] [2] []⟩]⟩ 120 (fun _ => none) false ≠
        .ok ()) :=
  firstupdate_salt_commitment (fun _ => 10) (fun _ => 0) (fun w => w.take 20)
    (fun _ => none) 1 100 120 7 [3] [5] [2] [] (by decide) (by decide) (by decide)
    false

/- Merge iterator (C2). -/

theorem advanceBase_cons_pos (c : CDomainCache) (x : valtype × CDomainData)
    (xs : List (valtype × CDomainData)) (hx : c.isDeleted x.1 = true) :
    advanceBase c (x :: xs) = advanceBase c xs := by
  unfold advanceBase
  exact List.dropWhile_cons_of_pos hx

theorem advanceBase_cons_neg (c : CDomainCache) (x : valtype × CDomainData)
    (xs : List (valtype × CDomainData)) (hx : c.isDeleted x.1 = false) :
    advanceBase c (x :: xs) = x :: xs := by
  unfold advanceBase
  exact List.dropWhile_cons_of_neg (by simp [hx])

theorem advanceBase_length_le (c : CDomainCache)
    (l : List (valtype × CDomainData)) : (advanceBase c l).length ≤ l.length :=
  (List.dropWhile_sublist _).length_le

theorem advanceBase_idem (c : CDomainCache) (l : List (valtype × CDomainData)) :
    advanceBase c (advanceBase c l) = advanceBase c l := by
  induction l with
  | nil => rfl
  | cons x xs ih =>
    cases hx : c.isDeleted x.1 with
    | true =>
      rw [advanceBase_cons_pos c x xs hx]
      exact ih
    | false =>
      rw [advanceBase_cons_neg c x xs hx, advanceBase_cons_neg c x xs hx]

theorem advanceBase_head_not_deleted (c : CDomainCache) (b : valtype × CDomainData)
    (bs : List (valtype × CDomainData)) (h : advanceBase c (b :: bs) = b :: bs) :
    c.isDeleted b.1 = false := by
  cases hd : c.isDeleted b.1 with
  | false => rfl
  | true =>
    rw [advanceBase_cons_pos c b bs hd] at h
    have := advanceBase_length_le c bs
    rw [h] at this
    simp at this

theorem mem_advanceBase_of_not_deleted (c : CDomainCache)
    (p : valtype × CDomainData) :
    ∀ l : List (valtype × CDomainData),
      p ∈ l → c.isDeleted p.1 = false → p ∈ advanceBase c l := by
  intro l
  induction l with
  | nil => intro h; cases h
  | cons x xs ih =>
    intro hmem hdel
    cases hx : c.isDeleted x.1 with
    | true =>
      rw [advanceBase_cons_pos c x xs hx]
      rcases List.mem_cons.mp hmem with he | ht
      · subst he
        rw [hdel] at hx
        cases hx
      · exact ih ht hdel
    | false =>
      rw [advanceBase_cons_neg c x xs hx]
      exact hmem

theorem mem_of_mem_advanceBase (c : CDomainCache) (p : valtype × CDomainData)
    (l : List (valtype × CDomainData)) (h : p ∈ advanceBase c l) : p ∈ l :=
  List.dropWhile_subset _ h

theorem mergeRun_nil_nil (c : CDomainCache) : mergeRun c [] [] = [] := by
  rw [mergeRun]

theorem mergeRun_nil_cons (c : CDomainCache) (ce : valtype × CDomainData)
    (cs : List (valtype × CDomainData)) :
    mergeRun c [] (ce :: cs) = ce :: mergeRun c [] cs := by
  rw [mergeRun]

theorem mergeRun_cons_nil (c : CDomainCache) (b : valtype × CDomainData)
    (bs : List (valtype × CDomainData)) :
    mergeRun c (b :: bs) [] = b :: mergeRun c (advanceBase c bs) [] := by
  rw [mergeRun]

theorem mergeRun_key_eq_adv_nil (c : CDomainCache) (b ce : valtype × CDomainData)
    (bs cs : List (valtype × CDomainData)) (h : b.1 = ce.1)
    (hadv : advanceBase c bs = []) :
    mergeRun c (b :: bs) (ce :: cs) = ce :: mergeRun c [] cs := by
  rw [mergeRun, if_pos h]
  split
  · rfl
  · rename_i b2 bs2 heq
    rw [hadv] at heq
    cases heq

theorem mergeRun_key_eq_adv_lt (c : CDomainCache) (b ce b2 : valtype × CDomainData)
    (bs cs bs2 : List (valtype × CDomainData)) (h : b.1 = ce.1)
    (hadv : advanceBase c bs = b2 :: bs2) (hlt : domLt b2.1 ce.1 = true) :
    mergeRun c (b :: bs) (ce :: cs) =
      b2 :: mergeRun c (advanceBase c bs2) (ce :: cs) := by
  rw [mergeRun, if_pos h]
  split
  · rename_i heq
    rw [hadv] at heq
    cases heq
  · rename_i b2' bs2' heq
    rw [hadv] at heq
    injection heq with h1 h2
    subst h1
    subst h2
    rw [if_pos hlt]

theorem mergeRun_key_eq_adv_ge (c : CDomainCache) (b ce b2 : valtype × CDomainData)
    (bs cs bs2 : List (valtype × CDomainData)) (h : b.1 = ce.1)
    (hadv : advanceBase c bs = b2 :: bs2) (hlt : domLt b2.1 ce.1 = false) :
    mergeRun c (b :: bs) (ce :: cs) = ce :: mergeRun c (b2 :: bs2) cs := by
  rw [mergeRun, if_pos h]
  split
  · rename_i heq
    rw [hadv] at heq
    cases heq
  · rename_i b2' bs2' heq
    rw [hadv] at heq
    injection heq with h1 h2
    subst h1
    subst h2
    rw [if_neg (by simp [hlt])]

theorem mergeRun_key_lt (c : CDomainCache) (b ce : valtype × CDomainData)
    (bs cs : List (valtype × CDomainData)) (hne : ¬ b.1 = ce.1)
    (hlt : domLt b.1 ce.1 = true) :
    mergeRun c (b :: bs) (ce :: cs) =
      b :: mergeRun c (advanceBase c bs) (ce :: cs) := by
  rw [mergeRun, if_neg hne, if_pos hlt]

theorem mergeRun_key_gt (c : CDomainCache) (b ce : valtype × CDomainData)
    (bs cs : List (valtype × CDomainData)) (hne : ¬ b.1 = ce.1)
    (hlt : domLt b.1 ce.1 = false) :
    mergeRun c (b :: bs) (ce :: cs) = ce :: mergeRun c (b :: bs) cs := by
  rw [mergeRun, if_neg hne, if_neg (by simp [hlt])]

theorem domLt_ne {a b : valtype} (h : domLt a b = true) : a ≠ b := by
  intro he
  subst he
  rw [domLt_irrefl] at h
  cases h

theorem lookupAssoc_cons_none_iff {α β : Type} [DecidableEq α] (k k2 : α)
    (v : β) (l : List (α × β)) :
    lookupAssoc k ((k2, v) :: l) = none ↔ k2 ≠ k ∧ lookupAssoc k l = none := by
  by_cases h : k2 = k <;> simp [lookupAssoc, h]

theorem mergeRun_correct (c : CDomainCache) :
    ∀ (n : Nat) (bs cs : List (valtype × CDomainData)),
      bs.length + cs.length ≤ n →
      List.Pairwise (fun p q => domLt p.1 q.1 = true) bs →
      List.Pairwise (fun p q => domLt p.1 q.1 = true) cs →
      advanceBase c bs = bs →
      List.Pairwise (fun p q => domLt p.1 q.1 = true) (mergeRun c bs cs) ∧
      (∀ p, p ∈ mergeRun c bs cs ↔
        p ∈ cs ∨
          (p ∈ bs ∧ c.isDeleted p.1 = false ∧ lookupAssoc p.1 cs = none)) := by
  intro n
  induction n with
  | zero =>
    intro bs cs hlen _ _ _
    have hbs : bs = [] := by
      cases bs with
      | nil => rfl
      | cons x xs => simp at hlen
    have hcs : cs = [] := by
      cases cs with
      | nil => rfl
      | cons x xs => simp at hlen
    subst hbs
    subst hcs
    rw [mergeRun_nil_nil]
    refine ⟨List.Pairwise.nil, ?_⟩
    intro p
    simp
  | succ n ih =>
    intro bs cs hlen hpb hpc hinv
    cases bs with
    | nil =>
      cases cs with
      | nil =>
        rw [mergeRun_nil_nil]
        refine ⟨List.Pairwise.nil, ?_⟩
        intro p
        simp
      | cons ce cs2 =>
        have hpc2 := List.pairwise_cons.mp hpc
        rw [mergeRun_nil_cons]
        have ihr := ih [] cs2
          (by simp only [List.length_cons, List.length_nil] at hlen ⊢; omega)
          List.Pairwise.nil hpc2.2 rfl
        refine ⟨?_, ?_⟩
        · rw [List.pairwise_cons]
          refine ⟨?_, ihr.1⟩
          intro q hq
          rcases (ihr.2 q).mp hq with hq2 | hq2
          · exact hpc2.1 q hq2
          · rcases hq2 with ⟨hmem, _⟩
            cases hmem
        · intro p
          rw [List.mem_cons, ihr.2 p]
          simp [List.mem_cons]
    | cons b bs2 =>
      have hpb2 := List.pairwise_cons.mp hpb
      have hbdel : c.isDeleted b.1 = false :=
        advanceBase_head_not_deleted c b bs2 hinv
      cases cs with
      | nil =>
        rw [mergeRun_cons_nil]
        have ihr := ih (advanceBase c bs2) []
          (by
            have hle := advanceBase_length_le c bs2
            simp only [List.length_cons, List.length_nil] at hlen ⊢
            omega)
          (hpb2.2.sublist (List.dropWhile_sublist _)) List.Pairwise.nil
          (advanceBase_idem c bs2)
        refine ⟨?_, ?_⟩
        · rw [List.pairwise_cons]
          refine ⟨?_, ihr.1⟩
          intro q hq
          rcases (ihr.2 q).mp hq with hq2 | hq2
          · cases hq2
          · exact hpb2.1 q (mem_of_mem_advanceBase c q bs2 hq2.1)
        · intro p
          rw [List.mem_cons, ihr.2 p]
          constructor
          · rintro (he | hq | ⟨hmem, hdel, _⟩)
            · subst he
              exact .inr ⟨List.mem_cons_self _ _, hbdel, rfl⟩
            · cases hq
            · exact .inr
                ⟨List.mem_cons.mpr (.inr (mem_of_mem_advanceBase c p bs2 hmem)),
                  hdel, rfl⟩
          · rintro (hq | ⟨hmem, hdel, _⟩)
            · cases hq
            · rcases List.mem_cons.mp hmem with he | ht
              · exact .inl he
              · exact .inr (.inr
                  ⟨mem_advanceBase_of_not_deleted c p bs2 ht hdel, hdel, rfl⟩)
      | cons ce cs2 =>
        have hpc2 := List.pairwise_cons.mp hpc
        by_cases hb : b.1 = ce.1
        · cases hadv : advanceBase c bs2 with
          | nil =>
            rw [mergeRun_key_eq_adv_nil c b ce bs2 cs2 hb hadv]
            have ihr := ih [] cs2
              (by simp only [List.length_cons, List.length_nil] at hlen ⊢; omega)
              List.Pairwise.nil hpc2.2 rfl
            refine ⟨?_, ?_⟩
            · rw [List.pairwise_cons]
              refine ⟨?_, ihr.1⟩
              intro q hq
              rcases (ihr.2 q).mp hq with hq2 | hq2
              · exact hpc2.1 q hq2
              · rcases hq2 with ⟨hmem, _⟩
                cases hmem
            · intro p
              rw [List.mem_cons, ihr.2 p]
              constructor
              · rintro (he | hq | ⟨hmem, _⟩)
                · exact .inl (List.mem_cons.mpr (.inl he))
                · exact .inl (List.mem_cons.mpr (.inr hq))
                · cases hmem
              · rintro (hq | ⟨hmem, hdel, hlook⟩)
                · rcases List.mem_cons.mp hq with he | ht
                  · exact .inl he
                  · exact .inr (.inl ht)
                · exfalso
                  rcases List.mem_cons.mp hmem with he | ht
                  · subst he
                    rw [lookupAssoc_cons_none_iff] at hlook
                    exact hlook.1 hb.symm
                  · have := mem_advanceBase_of_not_deleted c p bs2 ht hdel
                    rw [hadv] at this
                    cases this
          | cons b2 bs3 =>
            have hb2mem : b2 ∈ bs2 :=
              mem_of_mem_advanceBase c b2 bs2 (hadv ▸ List.mem_cons_self b2 bs3)
            have hbb2 : domLt b.1 b2.1 = true := hpb2.1 b2 hb2mem
            have hceb2 : domLt ce.1 b2.1 = true := by rw [← hb]; exact hbb2
            have hlt2 : domLt b2.1 ce.1 = false := domLt_asymm hceb2
            rw [mergeRun_key_eq_adv_ge c b ce b2 bs2 cs2 bs3 hb hadv hlt2]
            have hpadv : List.Pairwise (fun p q => domLt p.1 q.1 = true)
                (b2 :: bs3) := by
              rw [← hadv]
              exact hpb2.2.sublist (List.dropWhile_sublist _)
            have hinv2 : advanceBase c (b2 :: bs3) = b2 :: bs3 := by
              rw [← hadv]
              exact advanceBase_idem c bs2
            have ihr := ih (b2 :: bs3) cs2
              (by
                have hle := advanceBase_length_le c bs2
                rw [hadv] at hle
                simp only [List.length_cons] at hlen hle ⊢
                omega)
              hpadv hpc2.2 hinv2
            have hsubbs2 : ∀ q, q ∈ b2 :: bs3 → q ∈ bs2 := by
              intro q hq
              rw [← hadv] at hq
              exact mem_of_mem_advanceBase c q bs2 hq
            have hcelt : ∀ q : valtype × CDomainData,
                q ∈ b2 :: bs3 → domLt ce.1 q.1 = true := by
              intro q hq
              rcases List.mem_cons.mp hq with he | ht
              · subst he; exact hceb2
              · exact domLt_trans hceb2 ((List.pairwise_cons.mp hpadv).1 q ht)
            refine ⟨?_, ?_⟩
            · rw [List.pairwise_cons]
              refine ⟨?_, ihr.1⟩
              intro q hq
              rcases (ihr.2 q).mp hq with hq2 | hq2
              · exact hpc2.1 q hq2
              · exact hcelt q hq2.1
            · intro p
              rw [List.mem_cons, ihr.2 p]
              constructor
              · rintro (he | hq | ⟨hmem, hdel, hlook⟩)
                · exact .inl (List.mem_cons.mpr (.inl he))
                · exact .inl (List.mem_cons.mpr (.inr hq))
                · refine .inr ⟨List.mem_cons.mpr (.inr (hsubbs2 p hmem)), hdel, ?_⟩
                  rw [lookupAssoc_cons_none_iff]
                  exact ⟨fun he => domLt_ne (hcelt p hmem) he, hlook⟩
              · rintro (hq | ⟨hmem, hdel, hlook⟩)
                · rcases List.mem_cons.mp hq with he | ht
                  · exact .inl he
                  · exact .inr (.inl ht)
                · rw [lookupAssoc_cons_none_iff] at hlook
                  rcases List.mem_cons.mp hmem with he | ht
                  · exfalso
                    subst he
                    exact hlook.1 hb.symm
                  · have hpadv2 := mem_advanceBase_of_not_deleted c p bs2 ht hdel
                    rw [hadv] at hpadv2
                    exact .inr (.inr ⟨hpadv2, hdel, hlook.2⟩)
        · cases hlt : domLt b.1 ce.1 with
          | true =>
            rw [mergeRun_key_lt c b ce bs2 cs2 hb hlt]
            have ihr := ih (advanceBase c bs2) (ce :: cs2)
              (by
                have hle := advanceBase_length_le c bs2
                simp only [List.length_cons] at hlen ⊢
                omega)
              (hpb2.2.sublist (List.dropWhile_sublist _)) hpc
              (advanceBase_idem c bs2)
            have hlookcs2 : lookupAssoc b.1 cs2 = none := by
              apply lookupAssoc_eq_none
              intro q hq he
              have hceq : domLt ce.1 q.1 = true := hpc2.1 q hq
              rw [he] at hceq
              have := domLt_trans hlt hceq
              rw [domLt_irrefl] at this
              cases this
            refine ⟨?_, ?_⟩
            · rw [List.pairwise_cons]
              refine ⟨?_, ihr.1⟩
              intro q hq
              rcases (ihr.2 q).mp hq with hq2 | hq2
              · rcases List.mem_cons.mp hq2 with he | ht
                · subst he; exact hlt
                · exact domLt_trans hlt (hpc2.1 q ht)
              · exact hpb2.1 q (mem_of_mem_advanceBase c q bs2 hq2.1)
            · intro p
              rw [List.mem_cons, ihr.2 p]
              constructor
              · rintro (he | hq | ⟨hmem, hdel, hlook⟩)
                · subst he
                  refine .inr ⟨List.mem_cons_self _ _, hbdel, ?_⟩
                  rw [lookupAssoc_cons_none_iff]
                  exact ⟨fun he2 => hb he2.symm, hlookcs2⟩
                · exact .inl hq
                · exact .inr
                    ⟨List.mem_cons.mpr (.inr (mem_of_mem_advanceBase c p bs2 hmem)),
                      hdel, hlook⟩
              · rintro (hq | ⟨hmem, hdel, hlook⟩)
                · exact .inr (.inl hq)
                · rcases List.mem_cons.mp hmem with he | ht
                  · exact .inl he
                  · exact .inr (.inr
                      ⟨mem_advanceBase_of_not_deleted c p bs2 ht hdel, hdel, hlook⟩)
          | false =>
            have hlt2 : domLt ce.1 b.1 = true := by
              cases hlt3 : domLt ce.1 b.1 with
              | true => rfl
              | false =>
                exact absurd (domLt_conn hlt hlt3).symm (fun he => hb he.symm)
            rw [mergeRun_key_gt c b ce bs2 cs2 hb hlt]
            have ihr := ih (b :: bs2) cs2
              (by simp only [List.length_cons] at hlen ⊢; omega)
              hpb hpc2.2 hinv
            have hcep : ∀ q : valtype × CDomainData,
                q ∈ b :: bs2 → domLt ce.1 q.1 = true := by
              intro q hq
              rcases List.mem_cons.mp hq with he | ht
              · subst he; exact hlt2
              · exact domLt_trans hlt2 (hpb2.1 q ht)
            refine ⟨?_, ?_⟩
            · rw [List.pairwise_cons]
              refine ⟨?_, ihr.1⟩
              intro q hq
              rcases (ihr.2 q).mp hq with hq2 | hq2
              · exact hpc2.1 q hq2
              · exact hcep q hq2.1
            · intro p
              rw [List.mem_cons, ihr.2 p]
              constructor
              · rintro (he | hq | ⟨hmem, hdel, hlook⟩)
                · exact .inl (List.mem_cons.mpr (.inl he))
                · exact .inl (List.mem_cons.mpr (.inr hq))
                · refine .inr ⟨hmem, hdel, ?_⟩
                  rw [lookupAssoc_cons_none_iff]
                  exact ⟨fun he => domLt_ne (hcep p hmem) he, hlook⟩
              · rintro (hq | ⟨hmem, hdel, hlook⟩)
                · rcases List.mem_cons.mp hq with he | ht
                  · exact .inl he
                  · exact .inr (.inl ht)
                · rw [lookupAssoc_cons_none_iff] at hlook
                  exact .inr (.inr ⟨hmem, hdel, hlook.2⟩)

/-- C2: over every base iterator yielding a finite sequence sorted by the
domain ordering and every overlay cache with sorted entries, the merge
iterator yields a sorted (hence duplicate-free) sequence of (domain, record)
pairs whose members are exactly the cache's entries (a key present in the
cache is emitted with the cache's record, the equal base candidate being
skipped) together with the base pairs whose key is neither marked deleted in
the cache nor present in the cache's entries; ordering-wise smaller
candidates are emitted first.  In particular, over the base
`[("aa", X), ("bbb", Y)]` and a cache holding `set("a", Z)` and
`remove("bbb")` the iterator yields exactly `[("a", Z), ("aa", X)]` in that
order. -/
theorem mergeIterator_correct :
    (∀ (c : CDomainCache) (base : List (valtype × CDomainData)),
      List.Pairwise (fun p q => domLt p.1 q.1 = true) base →
      List.Pairwise (fun p q => domLt p.1 q.1 = true) c.entries →
      List.Pairwise (fun p q => domLt p.1 q.1 = true) (mergeList c base) ∧
      (∀ p, p ∈ mergeList c base ↔
        p ∈ c.entries ∨
          (p ∈ base ∧ c.isDeleted p.1 = false ∧
            lookupAssoc p.1 c.entries = none))) ∧
    mergeList ((emptyCache.set [97] ⟨[3], 3, (3, 0), []⟩).remove [98, 98, 98])
        [([97, 97], ⟨[1], 1, (1, 0), []⟩), ([98, 98, 98], ⟨[2], 2, (2, 0), []⟩)] =
      [([97], ⟨[3], 3, (3, 0), []⟩), ([97, 97], ⟨[1], 1, (1, 0), []⟩)] := by
  constructor
  · intro c base hpb hpe
    have hcore := mergeRun_correct c (base.length + c.entries.length)
      (advanceBase c base) c.entries
      (by have := advanceBase_length_le c base; omega)
      (hpb.sublist (List.dropWhile_sublist _)) hpe (advanceBase_idem c base)
    unfold mergeList
    refine ⟨hcore.1, ?_⟩
    intro p
    rw [hcore.2 p]
    constructor
    · rintro (h | ⟨hmem, hdel, hlook⟩)
      · exact .inl h
      · exact .inr ⟨mem_of_mem_advanceBase c p base hmem, hdel, hlook⟩
    · rintro (h | ⟨hmem, hdel, hlook⟩)
      · exact .inl h
      · exact .inr
          ⟨mem_advanceBase_of_not_deleted c p base hmem hdel, hdel, hlook⟩
  · show mergeRun ((emptyCache.set [97] ⟨[3], 3, (3, 0), []⟩).remove [98, 98, 98])
        [([97, 97], ⟨[1], 1, (1, 0), []⟩), ([98, 98, 98], ⟨[2], 2, (2, 0), []⟩)]
        [([97], ⟨[3], 3, (3, 0), []⟩)] =
      [([97], ⟨[3], 3, (3, 0), []⟩), ([97, 97], ⟨[1], 1, (1, 0), []⟩)]
    rw [mergeRun_key_gt _ _ _ _ _ (by decide) (by decide)]
    rw [mergeRun_cons_nil]
    rw [show advanceBase
        ((emptyCache.set [97] ⟨[3], 3, (3, 0), []⟩).remove [98, 98, 98])
        [([98, 98, 98], ⟨[2], 2, (2, 0), []⟩)] = [] from rfl]
    rw [mergeRun_nil_nil]

/-- C2 witness: the general half of the merge-iterator theorem applied to
the concrete example cache and base sequence. -/
theorem mergeIterator_correct_witness :
    List.Pairwise (fun p q => domLt p.1 q.1 = true)
        (mergeList ((emptyCache.set [97] ⟨[3], 3, (3, 0), []⟩).remove [98, 98, 98])
          [([97, 97], ⟨[1], 1, (1, 0), []⟩), ([98, 98, 98], ⟨[2], 2, (2, 0), []⟩)]) ∧
      (∀ p,
        p ∈ mergeList ((emptyCache.set [97] ⟨[3], 3, (3, 0), []⟩).remove [98, 98, 98])
            [([97, 97], ⟨[1], 1, (1, 0), []⟩), ([98, 98, 98], ⟨[2], 2, (2, 0), []⟩)] ↔
          p ∈ ((emptyCache.set [97] ⟨[3], 3, (3, 0), []⟩).remove [98, 98, 98]).entries ∨
            (p ∈ [([97, 97], ⟨[1], 1, (1, 0), []⟩), ([98, 98, 98], ⟨[2], 2, (2, 0), []⟩)] ∧
              ((emptyCache.set [97] ⟨[3], 3, (3, 0), []⟩).remove [98, 98, 98]).isDeleted
                  p.1 = false ∧
              lookupAssoc p.1
                  ((emptyCache.set [97] ⟨[3], 3, (3, 0), []⟩).remove
                      [98, 98, 98]).entries = none)) :=
  mergeIterator_correct.1 _ _ (by decide) (by decide)

end Beyondcoin
